import Mathlib

/-!
Verification of the consensus engine of the ArchSync repository.

The definitions below are a shallow embedding of `src/lib/clustering.ts`
(`cosineSimilarity`, `clusterUnderstandings`, `calculateConsensus`) and of the
ADR status derivation in `src/app/api/adr/generate/route.ts`.  JavaScript
numbers are modelled as real numbers, `Math.sqrt` as `Real.sqrt`, and a thrown
exception as the `Except.error` case, so that every fallible operation returns
`Except String`.  Lists keep the order of the JavaScript arrays, mutation of
the `clusters` array is modelled by explicit state passing, and the stable
`Array.prototype.sort` is modelled by a stable insertion sort.
-/

namespace ArchSync

/-- The fields of the `Understanding` record of `src/lib/db-types.ts` that the
clustering module reads: `id`, `understanding_text` and `embedding`
(`number[] | null`). -/
structure Understanding where
  id : String
  understanding_text : String
  embedding : Option (List ℝ)

instance : Inhabited Understanding := ⟨⟨"", "", none⟩⟩

/-- The `Cluster` interface of `src/lib/clustering.ts`. -/
structure Cluster where
  id : Nat
  understandings : List Understanding
  representative_text : String
  size : Nat
  percentage : ℝ

instance : Inhabited Cluster := ⟨⟨0, [], "", 0, 0⟩⟩

/-- `cosineSimilarity` of `src/lib/clustering.ts`: throws when the vectors
have different lengths, returns `0` when either magnitude is zero, and
otherwise the dot product divided by the product of the Euclidean
magnitudes. -/
noncomputable def cosineSimilarity (vecA vecB : List ℝ) : Except String ℝ :=
  if vecA.length ≠ vecB.length then
    .error "Vectors must have the same length"
  else
    let dotProduct := (List.zipWith (fun a b => a * b) vecA vecB).sum
    let magnitudeA := Real.sqrt ((vecA.map fun x => x * x).sum)
    let magnitudeB := Real.sqrt ((vecB.map fun x => x * x).sum)
    if magnitudeA = 0 ∨ magnitudeB = 0 then .ok 0
    else .ok (dotProduct / (magnitudeA * magnitudeB))

/-- The value computed by `cosineSimilarity` in the non-throwing case, as a
total function (used to state properties of successful runs). -/
noncomputable def cosSimVal (vecA vecB : List ℝ) : ℝ :=
  if Real.sqrt ((vecA.map fun x => x * x).sum) = 0 ∨
      Real.sqrt ((vecB.map fun x => x * x).sum) = 0 then 0
  else
    (List.zipWith (fun a b => a * b) vecA vecB).sum /
      (Real.sqrt ((vecA.map fun x => x * x).sum) * Real.sqrt ((vecB.map fun x => x * x).sum))

/-- The hard-coded similarity threshold of `clusterUnderstandings`. -/
noncomputable def SIMILARITY_THRESHOLD : ℝ := 0.75

/-- The filter `u.embedding && u.embedding.length > 0` applied to the input of
`clusterUnderstandings`. -/
def hasUsableEmbedding (u : Understanding) : Bool :=
  match u.embedding with
  | none => false
  | some e => decide (0 < e.length)

/-- The embedding of an understanding after the non-null assertion
`u.embedding!`. -/
def embOf (u : Understanding) : List ℝ :=
  u.embedding.getD []

/-- The list of valid understandings used by `clusterUnderstandings`. -/
def validOf (us : List Understanding) : List Understanding :=
  us.filter hasUsableEmbedding

/-- The loop of `clusterUnderstandings` that finds the cluster containing a
given understanding: it scans every index `k` and keeps the last `k` whose
cluster contains the id, starting from `-1`. -/
def findClusterIdx (clusters : List (List Understanding)) (targetId : String) : Int :=
  (List.range clusters.length).foldl
    (fun acc k =>
      if (clusters.getD k []).any (fun u => u.id == targetId) then (k : Int) else acc)
    (-1)

/-- The body of the pair loop of `clusterUnderstandings` after the similarity
has been computed: merge the clusters containing the two ids when the
similarity reaches the threshold and the clusters are distinct
(`clusters[clusterI] = [...clusters[clusterI], ...clusters[clusterJ]]`
followed by `clusters.splice(clusterJ, 1)`). -/
noncomputable def applyMerge (clusters : List (List Understanding))
    (idI idJ : String) (similarity : ℝ) : List (List Understanding) :=
  if SIMILARITY_THRESHOLD ≤ similarity then
    let clusterI := findClusterIdx clusters idI
    let clusterJ := findClusterIdx clusters idJ
    if clusterI ≠ clusterJ ∧ clusterI ≠ -1 ∧ clusterJ ≠ -1 then
      (clusters.set clusterI.toNat
          ((clusters.getD clusterI.toNat []) ++ (clusters.getD clusterJ.toNat []))).eraseIdx
        clusterJ.toNat
    else clusters
  else clusters

/-- The ordered list of index pairs `(i, j)` with `i < j` visited by the
nested loops of `clusterUnderstandings`. -/
def pairList (n : Nat) : List (Nat × Nat) :=
  (List.range n).flatMap fun i =>
    ((List.range n).filter fun j => decide (i < j)).map fun j => (i, j)

/-- The pair loop of `clusterUnderstandings`: for each pair compute the
similarity (a thrown error aborts the whole computation) and merge. -/
noncomputable def runPairs (valid : List Understanding) :
    List (Nat × Nat) → List (List Understanding) → Except String (List (List Understanding))
  | [], clusters => .ok clusters
  | (i, j) :: rest, clusters =>
    match cosineSimilarity (embOf (valid.getD i default)) (embOf (valid.getD j default)) with
    | .error e => .error e
    | .ok similarity =>
        runPairs valid rest
          (applyMerge clusters (valid.getD i default).id (valid.getD j default).id similarity)

/-- Insert a cluster into a list sorted by non-increasing length, after the
strictly longer prefix (the unique stable position). -/
def insertCluster (c : List Understanding) :
    List (List Understanding) → List (List Understanding)
  | [] => [c]
  | d :: ds => if c.length < d.length then d :: insertCluster c ds else c :: d :: ds

/-- The stable sort by descending member count,
`clusters.sort((a, b) => b.length - a.length)`. -/
def sortClusters : List (List Understanding) → List (List Understanding)
  | [] => []
  | c :: cs => insertCluster c (sortClusters cs)

/-- The inner loop of the representative computation: sum of the similarities
of member `i` to every other member `j` of the cluster, visiting the indices
in `js` and skipping `j = i`. -/
noncomputable def sumSimilarities (cluster : List Understanding) (i : Nat) :
    List Nat → Except String ℝ
  | [] => .ok 0
  | j :: js =>
    if i = j then sumSimilarities cluster i js
    else
      match cosineSimilarity (embOf (cluster.getD i default)) (embOf (cluster.getD j default)) with
      | .error e => .error e
      | .ok s =>
        match sumSimilarities cluster i js with
        | .error e => .error e
        | .ok rest => .ok (s + rest)

/-- The outer loop of the representative computation, carrying
`(representativeIndex, maxAvgSimilarity)` and replacing the state only on a
strictly greater average similarity. -/
noncomputable def repFold (cluster : List Understanding) :
    List Nat → Nat × ℝ → Except String (Nat × ℝ)
  | [], st => .ok st
  | i :: is, st =>
    match sumSimilarities cluster i (List.range cluster.length) with
    | .error e => .error e
    | .ok totalSimilarity =>
      let avgSimilarity := totalSimilarity / ((cluster.length : ℝ) - 1)
      if avgSimilarity > st.2 then repFold cluster is (i, avgSimilarity)
      else repFold cluster is st

/-- The representative index of a cluster: `0` for clusters of at most one
member, otherwise the result of the fold started at `(0, -1)`. -/
noncomputable def repSelect (cluster : List Understanding) : Except String Nat :=
  if 1 < cluster.length then
    match repFold cluster (List.range cluster.length) (0, -1) with
    | .error e => .error e
    | .ok st => .ok st.1
  else .ok 0

/-- The final `clusters.map((clusterUnderstandings, index) => ...)` of
`clusterUnderstandings`, producing the `Cluster` records in order. -/
noncomputable def buildClusters (total : Nat) :
    Nat → List (List Understanding) → Except String (List Cluster)
  | _, [] => .ok []
  | index, c :: cs =>
    match repSelect c with
    | .error e => .error e
    | .ok representativeIndex =>
      match buildClusters total (index + 1) cs with
      | .error e => .error e
      | .ok rest =>
        .ok ({ id := index + 1
               understandings := c
               representative_text := (c.getD representativeIndex default).understanding_text
               size := c.length
               percentage := ((c.length : ℝ) / (total : ℝ)) * 100 } :: rest)

/-- `clusterUnderstandings` of `src/lib/clustering.ts`. -/
noncomputable def clusterUnderstandings (understandings : List Understanding) :
    Except String (List Cluster) :=
  let validUnderstandings := understandings.filter hasUsableEmbedding
  if validUnderstandings.length = 0 then .ok []
  else
    match
      runPairs validUnderstandings (pairList validUnderstandings.length)
        (validUnderstandings.map fun u => [u])
    with
    | .error e => .error e
    | .ok merged => buildClusters validUnderstandings.length 0 (sortClusters merged)

/-- `calculateConsensus` of `src/lib/clustering.ts`: `0` on the empty list,
otherwise the percentage of the first (largest) cluster. -/
def calculateConsensus (clusters : List Cluster) : ℝ :=
  match clusters with
  | [] => 0
  | largestCluster :: _ => largestCluster.percentage

/-- The status derivation of `src/app/api/adr/generate/route.ts`:
`let status = 'Under Discussion'; if (consensusPercentage > 70) status =
'Accepted'; else if (consensusPercentage >= 50) status = 'Proposed';`. -/
noncomputable def adrStatus (consensusPercentage : ℝ) : String :=
  if consensusPercentage > 70 then "Accepted"
  else if consensusPercentage ≥ 50 then "Proposed"
  else "Under Discussion"

/-- The last-match fold underlying `findClusterIdx`, abstracted over the
predicate on indices. -/
def lastMatchFold (p : Nat → Bool) (n : Nat) : Int :=
  (List.range n).foldl (fun acc k => if p k then (k : Int) else acc) (-1)
/-- A clustering state is good when its blocks hold exactly the valid
understandings (as a permutation) and no block is empty. -/
def GoodState (valid : List Understanding) (bs : List (List Understanding)) : Prop :=
  List.Perm bs.flatten valid ∧ ∀ b ∈ bs, b ≠ []
/-- Two understandings lie in a common block of the state. -/
def SameCluster (bs : List (List Understanding)) (x y : Understanding) : Prop :=
  ∃ b ∈ bs, x ∈ b ∧ y ∈ b
/-- The edge relation generated by a list of index pairs: the two
understandings at the (in-bounds) indices of some listed pair whose computed
similarity reaches the threshold, in either orientation. -/
def PairEdge (valid : List Understanding) (P : List (Nat × Nat))
    (x y : Understanding) : Prop :=
  ∃ p ∈ P, p.1 < valid.length ∧ p.2 < valid.length ∧
    SIMILARITY_THRESHOLD ≤
      cosSimVal (embOf (valid.getD p.1 default)) (embOf (valid.getD p.2 default)) ∧
    ((x = valid.getD p.1 default ∧ y = valid.getD p.2 default) ∨
      (x = valid.getD p.2 default ∧ y = valid.getD p.1 default))
/-- Two distinct valid understandings joined by a similarity reaching the
threshold. -/
def Linked (valid : List Understanding) (x y : Understanding) : Prop :=
  x ∈ valid ∧ y ∈ valid ∧ x ≠ y ∧
    SIMILARITY_THRESHOLD ≤ cosSimVal (embOf x) (embOf y)
/-- Connectivity in the threshold graph: the reflexive-transitive closure of
`Linked`. -/
def Connected (valid : List Understanding) (x y : Understanding) : Prop :=
  Relation.ReflTransGen (Linked valid) x y
/-- The sum of similarities of member `i` to the members at the other indices
of `js`, as a pure value. -/
noncomputable def simSumOver (c : List Understanding) (i : Nat) (js : List Nat) : ℝ :=
  ((js.filter fun j => decide (i ≠ j)).map fun j =>
    cosSimVal (embOf (c.getD i default)) (embOf (c.getD j default))).sum
/-- The average pairwise cosine similarity of the member at index `i` to all
other members of the cluster. -/
noncomputable def avgSimWithin (c : List Understanding) (i : Nat) : ℝ :=
  simSumOver c i (List.range c.length) / ((c.length : ℝ) - 1)
/-- The pure step of the representative fold. -/
noncomputable def pureStep (c : List Understanding) (st : Nat × ℝ) (i : Nat) : Nat × ℝ :=
  if avgSimWithin c i > st.2 then (i, avgSimWithin c i) else st

/-- A concrete understanding with embedding `[1, 0]` (magnitude `1`). -/
noncomputable def exU0 : Understanding :=
  { id := "a", understanding_text := "t0", embedding := some [1, 0] }

/-- A concrete understanding with embedding `[7, 24]` (magnitude `25`). -/
noncomputable def exU1 : Understanding :=
  { id := "b", understanding_text := "t1", embedding := some [7, 24] }

/-- A concrete understanding with embedding `[4, 3]` (magnitude `5`). -/
noncomputable def exU2 : Understanding :=
  { id := "c", understanding_text := "t2", embedding := some [4, 3] }

/-- A concrete input batch: `sim(exU0, exU1) = 7/25 < 0.75`,
`sim(exU0, exU2) = 4/5 ≥ 0.75` and `sim(exU1, exU2) = 4/5 ≥ 0.75`, so the
three statements merge into one cluster through `exU2`. -/
noncomputable def exInput : List Understanding := [exU0, exU1, exU2]

/-- A concrete understanding with a one-dimensional embedding. -/
noncomputable def mismatchA : Understanding :=
  { id := "m1", understanding_text := "s1", embedding := some [1] }

/-- A concrete understanding with a two-dimensional embedding. -/
noncomputable def mismatchB : Understanding :=
  { id := "m2", understanding_text := "s2", embedding := some [1, 0] }

/-! ### Basic facts about the similarity engine -/

/-- Sums of squares are nonnegative. -/
lemma sum_sq_nonneg (l : List ℝ) : 0 ≤ (l.map fun x => x * x).sum := by
  induction l with
  | nil => simp
  | cons x xs ih => simpa using add_nonneg (mul_self_nonneg x) ih

/-- Cauchy–Schwarz inequality for the list dot product. -/
lemma sq_sum_zipWith_le (a b : List ℝ) :
    ((List.zipWith (fun x y => x * y) a b).sum) ^ 2 ≤
      (a.map fun x => x * x).sum * (b.map fun x => x * x).sum := by
  induction a generalizing b with
  | nil =>
    simpa using mul_nonneg (sum_sq_nonneg []) (sum_sq_nonneg b)
  | cons x xs ih =>
    cases b with
    | nil =>
      simpa using mul_nonneg (sum_sq_nonneg (x :: xs)) (sum_sq_nonneg [])
    | cons y ys =>
      have hS := ih ys
      have hA := sum_sq_nonneg xs
      have hB := sum_sq_nonneg ys
      set S := (List.zipWith (fun x y => x * y) xs ys).sum with hSdef
      set A := (xs.map fun x => x * x).sum with hAdef
      set B := (ys.map fun x => x * x).sum with hBdef
      simp only [List.zipWith_cons_cons, List.sum_cons, List.map_cons, ← hSdef, ← hAdef, ← hBdef]
      have hBA : 0 ≤ x ^ 2 * B + y ^ 2 * A := by positivity
      have key : 2 * (x * y) * S ≤ x ^ 2 * B + y ^ 2 * A := by
        rcases le_or_lt (x * y * S) 0 with hneg | hpos
        · nlinarith
        · have h4 : (2 * (x * y) * S) ^ 2 ≤ (x ^ 2 * B + y ^ 2 * A) ^ 2 := by
            nlinarith [sq_nonneg (x ^ 2 * B - y ^ 2 * A), sq_nonneg (x * y), hS,
              mul_nonneg (sq_nonneg (x * y)) (mul_nonneg hA hB)]
          nlinarith [h4, hpos, hBA]
      nlinarith [key, hS]

/-- The dot product is bounded by the product of the magnitudes. -/
lemma abs_sum_zipWith_le (a b : List ℝ) :
    |(List.zipWith (fun x y => x * y) a b).sum| ≤
      Real.sqrt ((a.map fun x => x * x).sum) * Real.sqrt ((b.map fun x => x * x).sum) := by
  rw [← Real.sqrt_mul_self (abs_nonneg _), ← Real.sqrt_mul (sum_sq_nonneg a)]
  apply Real.sqrt_le_sqrt
  calc |(List.zipWith (fun x y => x * y) a b).sum| * |(List.zipWith (fun x y => x * y) a b).sum|
      = ((List.zipWith (fun x y => x * y) a b).sum) ^ 2 := by
        rw [← abs_mul, abs_mul_self]; ring
    _ ≤ _ := sq_sum_zipWith_le a b

/-- `cosSimVal` is bounded below by `-1`. -/
lemma neg_one_le_cosSimVal (a b : List ℝ) : -1 ≤ cosSimVal a b := by
  rw [cosSimVal]
  split
  · norm_num
  · rename_i h
    push_neg at h
    obtain ⟨hA, hB⟩ := h
    have hA0 : 0 < Real.sqrt ((a.map fun x => x * x).sum) :=
      lt_of_le_of_ne (Real.sqrt_nonneg _) (Ne.symm hA)
    have hB0 : 0 < Real.sqrt ((b.map fun x => x * x).sum) :=
      lt_of_le_of_ne (Real.sqrt_nonneg _) (Ne.symm hB)
    rw [neg_le, ← neg_div, div_le_one (mul_pos hA0 hB0)]
    have h1 := abs_sum_zipWith_le a b
    have h2 := neg_abs_le ((List.zipWith (fun x y => x * y) a b).sum)
    linarith

/-- `cosSimVal` is bounded above by `1`. -/
lemma cosSimVal_le_one (a b : List ℝ) : cosSimVal a b ≤ 1 := by
  rw [cosSimVal]
  split
  · norm_num
  · rename_i h
    push_neg at h
    obtain ⟨hA, hB⟩ := h
    have hA0 : 0 < Real.sqrt ((a.map fun x => x * x).sum) :=
      lt_of_le_of_ne (Real.sqrt_nonneg _) (Ne.symm hA)
    have hB0 : 0 < Real.sqrt ((b.map fun x => x * x).sum) :=
      lt_of_le_of_ne (Real.sqrt_nonneg _) (Ne.symm hB)
    rw [div_le_one (mul_pos hA0 hB0)]
    have h1 := abs_sum_zipWith_le a b
    have h2 := le_abs_self ((List.zipWith (fun x y => x * y) a b).sum)
    linarith

/-- The cosine similarity value is symmetric in its arguments. -/
lemma cosSimVal_comm (a b : List ℝ) : cosSimVal a b = cosSimVal b a := by
  rw [cosSimVal, cosSimVal,
    show List.zipWith (fun a b => a * b) a b = List.zipWith (fun a b => a * b) b a from
      List.zipWith_comm_of_comm _ (fun x y => mul_comm x y) a b]
  by_cases hA : Real.sqrt ((a.map fun x => x * x).sum) = 0 <;>
    by_cases hB : Real.sqrt ((b.map fun x => x * x).sum) = 0 <;>
      simp [hA, hB, mul_comm]

/-- `cosineSimilarity` succeeds exactly on equal-length vectors, with value
`cosSimVal`. -/
lemma cosineSimilarity_eq_ok (a b : List ℝ) (h : a.length = b.length) :
    cosineSimilarity a b = .ok (cosSimVal a b) := by
  simp only [cosineSimilarity, cosSimVal]
  rw [if_neg (by simpa using h)]
  split <;> rfl

/-- `cosineSimilarity` fails exactly on vectors of different lengths. -/
lemma cosineSimilarity_eq_error (a b : List ℝ) (h : a.length ≠ b.length) :
    cosineSimilarity a b = .error "Vectors must have the same length" := by
  simp only [cosineSimilarity]
  rw [if_pos h]

/-- A successful `cosineSimilarity` forces equal lengths and yields
`cosSimVal`. -/
lemma cosineSimilarity_ok_inv {a b : List ℝ} {r : ℝ}
    (h : cosineSimilarity a b = .ok r) : a.length = b.length ∧ r = cosSimVal a b := by
  by_cases hl : a.length = b.length
  · rw [cosineSimilarity_eq_ok a b hl] at h
    exact ⟨hl, (Except.ok.inj h).symm⟩
  · rw [cosineSimilarity_eq_error a b hl] at h
    exact absurd h (by simp)

/-! ### List utilities for the merge operation -/

/-- A list is a permutation of its `i`-th element consed onto the list with
index `i` erased. -/
lemma perm_getD_cons_eraseIdx {α : Type} [Inhabited α] (l : List α) (i : Nat)
    (d : α) (h : i < l.length) : List.Perm l (l.getD i d :: l.eraseIdx i) := by
  induction l generalizing i with
  | nil => simp at h
  | cons x xs ih =>
    cases i with
    | zero => simp [List.eraseIdx]
    | succ n =>
      simp only [List.getD_cons_succ, List.eraseIdx_cons_succ]
      exact (List.Perm.cons x (ih n (by simpa using h))).trans (List.Perm.swap _ _ _)

/-- Erasing the index that was just overwritten gives the same result as
erasing it from the original list. -/
lemma eraseIdx_set_same {α : Type} (l : List α) (n : Nat) (a : α) :
    (l.set n a).eraseIdx n = l.eraseIdx n := by
  rcases Nat.lt_or_ge n l.length with h | h
  · rw [List.set_eq_take_cons_drop a h, List.eraseIdx_eq_take_drop_succ,
      List.eraseIdx_eq_take_drop_succ]
    congr 1
    · rw [List.take_append_eq_append_take]
      simp [List.length_take, Nat.min_def, h.le]
    · rw [List.drop_append_eq_append_drop]
      simp [List.length_take, Nat.min_def, h.le, Nat.le_of_lt h]
  · rw [List.set_eq_of_length_le h]

/-- `getD` after `set` at a different index. -/
lemma getD_set_ne {α : Type} (l : List α) (i j : Nat) (a d : α) (h : i ≠ j) :
    (l.set i a).getD j d = l.getD j d := by
  rcases Nat.lt_or_ge j l.length with hj | hj
  · rw [List.getD_eq_getElem _ _ (by simpa using hj), List.getD_eq_getElem _ _ hj,
      List.getElem_set_ne (by omega)]
  · rw [List.getD_eq_default _ _ (by simpa using hj), List.getD_eq_default _ _ hj]

/-- `getD` after `set` at the written index. -/
lemma getD_set_same {α : Type} (l : List α) (i : Nat) (a d : α) (h : i < l.length) :
    (l.set i a).getD i d = a := by
  rw [List.getD_eq_getElem _ _ (by simpa using h), List.getElem_set_self]

/-- The flattened contents of the merge step (`set` the `i`-th block to the
concatenation, then erase the `j`-th block) are a permutation of the original
flattened contents. -/
lemma flatten_set_eraseIdx_perm (bs : List (List Understanding)) (i j : Nat)
    (hij : i ≠ j) (hi : i < bs.length) (hj : j < bs.length) :
    List.Perm ((bs.set i ((bs.getD i []) ++ (bs.getD j []))).eraseIdx j).flatten bs.flatten := by
  set Y := (bs.getD i []) ++ (bs.getD j []) with hY
  have hlen : (bs.set i Y).length = bs.length := by simp
  have h1 : List.Perm (bs.set i Y) ((bs.getD j []) :: (bs.set i Y).eraseIdx j) := by
    have := perm_getD_cons_eraseIdx (bs.set i Y) j [] (by omega)
    rwa [getD_set_ne bs i j Y [] hij] at this
  have h2 : List.Perm (bs.set i Y) (Y :: bs.eraseIdx i) := by
    have := perm_getD_cons_eraseIdx (bs.set i Y) i [] (by omega)
    rwa [getD_set_same bs i Y [] hi, eraseIdx_set_same] at this
  have h3 : List.Perm bs ((bs.getD i []) :: bs.eraseIdx i) :=
    perm_getD_cons_eraseIdx bs i [] hi
  have f1 := h1.flatten
  have f2 := h2.flatten
  have f3 := h3.flatten
  simp only [List.flatten_cons] at f1 f2 f3
  have e3 : List.Perm (((bs.getD i []) ++ (bs.getD j [])) ++ (bs.eraseIdx i).flatten)
      ((bs.getD j []) ++ ((bs.getD i []) ++ (bs.eraseIdx i).flatten)) := by
    rw [← List.append_assoc]
    exact List.perm_append_comm.append_right _
  have e4 : List.Perm ((bs.getD j []) ++ ((bs.getD i []) ++ (bs.eraseIdx i).flatten))
      ((bs.getD j []) ++ bs.flatten) := (f3.symm).append_left _
  have key : List.Perm ((bs.getD j []) ++ ((bs.set i Y).eraseIdx j).flatten)
      ((bs.getD j []) ++ bs.flatten) :=
    ((f1.symm.trans f2).trans (hY ▸ e3)).trans e4
  exact (List.perm_append_left_iff _).mp key

/-- Every block of the merged state is either the merged block or one of the
original blocks. -/
lemma mem_set_eraseIdx_cases {α : Type} (bs : List α) (i j : Nat) (x b : α)
    (h : b ∈ (bs.set i x).eraseIdx j) : b = x ∨ b ∈ bs := by
  have hb : b ∈ bs.set i x := (List.eraseIdx_sublist _ _).mem h
  rcases List.mem_or_eq_of_mem_set hb with h1 | h1
  · exact Or.inr h1
  · exact Or.inl h1

/-- The block written at index `i` survives erasing a different index `j`. -/
lemma set_mem_eraseIdx {α : Type} (bs : List α) (i j : Nat) (x : α)
    (hi : i < bs.length) (hj : j < bs.length) (hij : i ≠ j) :
    x ∈ (bs.set i x).eraseIdx j := by
  have hlen : (bs.set i x).length = bs.length := by simp
  have herase : ((bs.set i x).eraseIdx j).length = bs.length - 1 := by
    rw [List.length_eraseIdx]
    simp [hlen, hj]
  rcases Nat.lt_or_ge i j with h | h
  · have hb1 : i < ((bs.set i x).eraseIdx j).length := by omega
    have hx : ((bs.set i x).eraseIdx j)[i] = x := by
      rw [List.getElem_eraseIdx_of_lt _ _ _ _ h, List.getElem_set_self]
    exact List.mem_iff_getElem.mpr ⟨i, hb1, hx⟩
  · have hij2 : j < i := lt_of_le_of_ne h (Ne.symm hij)
    have hb1 : i - 1 < ((bs.set i x).eraseIdx j).length := by omega
    have hx : ((bs.set i x).eraseIdx j)[i - 1] = x := by
      rw [List.getElem_eraseIdx_of_ge _ _ _ _ (by omega)]
      have heq : i - 1 + 1 = i := by omega
      simp only [heq]
      rw [List.getElem_set_self]
    exact List.mem_iff_getElem.mpr ⟨i - 1, hb1, hx⟩

/-- A block at an index different from both `i` and `j` survives the merge
step. -/
lemma getElem_mem_set_eraseIdx {α : Type} (bs : List α) (i j k : Nat) (x : α)
    (hk : k < bs.length) (hj : j < bs.length) (hki : k ≠ i) (hkj : k ≠ j) :
    bs[k] ∈ (bs.set i x).eraseIdx j := by
  have hlen : (bs.set i x).length = bs.length := by simp
  have herase : ((bs.set i x).eraseIdx j).length = bs.length - 1 := by
    rw [List.length_eraseIdx]
    simp [hlen, hj]
  rcases Nat.lt_or_ge k j with h | h
  · have hb1 : k < ((bs.set i x).eraseIdx j).length := by omega
    have hx : ((bs.set i x).eraseIdx j)[k] = bs[k] := by
      rw [List.getElem_eraseIdx_of_lt _ _ _ _ h, List.getElem_set_ne (by omega)]
    exact List.mem_iff_getElem.mpr ⟨k, hb1, hx⟩
  · have hkj2 : j < k := lt_of_le_of_ne h (Ne.symm hkj)
    have hb1 : k - 1 < ((bs.set i x).eraseIdx j).length := by omega
    have hx : ((bs.set i x).eraseIdx j)[k - 1] = bs[k] := by
      rw [List.getElem_eraseIdx_of_ge _ _ _ _ (by omega)]
      have heq : k - 1 + 1 = k := by omega
      simp only [heq]
      rw [List.getElem_set_ne (by omega)]
    exact List.mem_iff_getElem.mpr ⟨k - 1, hb1, hx⟩

/-! ### The cluster-lookup fold -/

/-- `findClusterIdx` is the last-match fold over the block indices. -/
lemma findClusterIdx_eq_lastMatchFold (bs : List (List Understanding)) (tid : String) :
    findClusterIdx bs tid =
      lastMatchFold (fun k => (bs.getD k []).any fun u => u.id == tid) bs.length := rfl

/-- Unfolding the last-match fold by one step. -/
lemma lastMatchFold_succ (p : Nat → Bool) (n : Nat) :
    lastMatchFold p (n + 1) = if p n then (n : Int) else lastMatchFold p n := by
  rw [lastMatchFold, List.range_succ, List.foldl_append]
  rfl

/-- The last-match fold returns `-1` or a matching index below the bound. -/
lemma lastMatchFold_cases (p : Nat → Bool) (n : Nat) :
    lastMatchFold p n = -1 ∨
      ∃ k : Nat, k < n ∧ p k = true ∧ lastMatchFold p n = (k : Int) := by
  induction n with
  | zero => exact Or.inl rfl
  | succ m ih =>
    rw [lastMatchFold_succ]
    by_cases hp : p m = true
    · exact Or.inr ⟨m, by omega, hp, by rw [if_pos hp]⟩
    · rw [if_neg hp]
      rcases ih with h | ⟨k, hk, hpk, hval⟩
      · exact Or.inl h
      · exact Or.inr ⟨k, by omega, hpk, hval⟩

/-- When exactly one index matches, the last-match fold returns it. -/
lemma lastMatchFold_uniq (p : Nat → Bool) (n : Nat) (k₀ : Nat) (hk : k₀ < n)
    (hmatch : p k₀ = true) (huniq : ∀ k, k < n → p k = true → k = k₀) :
    lastMatchFold p n = (k₀ : Int) := by
  induction n with
  | zero => omega
  | succ m ih =>
    rw [lastMatchFold_succ]
    by_cases hp : p m = true
    · rw [if_pos hp, huniq m (by omega) hp]
    · rw [if_neg hp]
      have hk0 : k₀ < m := by
        rcases Nat.lt_or_ge k₀ m with h | h
        · exact h
        · exact absurd (by omega : k₀ = m) (fun he => hp (he ▸ hmatch))
      exact ih hk0 (fun k hkm hpk => huniq k (by omega) hpk)

/-! ### Well-formed clustering states -/

/-- `SameCluster` is symmetric. -/
lemma sameCluster_symm {bs : List (List Understanding)} {x y : Understanding}
    (h : SameCluster bs x y) : SameCluster bs y x := by
  obtain ⟨b, hb, hx, hy⟩ := h
  exact ⟨b, hb, hy, hx⟩

/-- In a good state over understandings with distinct ids, an understanding
lies in the block at exactly one position. -/
lemma block_position_unique (valid : List Understanding) (bs : List (List Understanding))
    (hgs : GoodState valid bs) (hnd : (valid.map Understanding.id).Nodup)
    {u : Understanding} {k₁ k₂ : Nat} (h₁ : k₁ < bs.length) (h₂ : k₂ < bs.length)
    (hu₁ : u ∈ bs[k₁]) (hu₂ : u ∈ bs[k₂]) : k₁ = k₂ := by
  by_contra hne
  have hndf : bs.flatten.Nodup := by
    have : (bs.flatten.map Understanding.id).Nodup :=
      (hnd.perm (hgs.1.map Understanding.id).symm)
    exact this.of_map
  have hdisj : bs.Pairwise List.Disjoint := (List.nodup_flatten.mp hndf).2
  have hpw := List.pairwise_iff_getElem.mp hdisj
  rcases Nat.lt_or_ge k₁ k₂ with h | h
  · exact (hpw k₁ k₂ h₁ h₂ h) hu₁ hu₂
  · exact (hpw k₂ k₁ h₂ h₁ (by omega)) hu₂ hu₁

/-- In a good state over understandings with distinct ids, `SameCluster` is
transitive. -/
lemma sameCluster_trans (valid : List Understanding) (bs : List (List Understanding))
    (hgs : GoodState valid bs) (hnd : (valid.map Understanding.id).Nodup)
    {x y z : Understanding} (hxy : SameCluster bs x y) (hyz : SameCluster bs y z) :
    SameCluster bs x z := by
  obtain ⟨b₁, hb₁, hx, hy₁⟩ := hxy
  obtain ⟨b₂, hb₂, hy₂, hz⟩ := hyz
  obtain ⟨k₁, hk₁, he₁⟩ := List.getElem_of_mem hb₁
  obtain ⟨k₂, hk₂, he₂⟩ := List.getElem_of_mem hb₂
  have := block_position_unique valid bs hgs hnd hk₁ hk₂ (he₁ ▸ hy₁) (he₂ ▸ hy₂)
  subst this
  have hb : b₁ = b₂ := by rw [← he₁, he₂]
  exact ⟨b₁, hb₁, hx, hb ▸ hz⟩

/-- Ids are injective on the members of a good state. -/
lemma id_inj_on_flatten (valid : List Understanding) (bs : List (List Understanding))
    (hgs : GoodState valid bs) (hnd : (valid.map Understanding.id).Nodup)
    {w u : Understanding} (hw : w ∈ bs.flatten) (hu : u ∈ bs.flatten)
    (h : w.id = u.id) : w = u := by
  have hndf : (bs.flatten.map Understanding.id).Nodup :=
    hnd.perm (hgs.1.map Understanding.id).symm
  exact List.inj_on_of_nodup_map hndf hw hu h

/-- In a good state with distinct ids, `findClusterIdx` returns the unique
block index containing the given valid understanding. -/
lemma findClusterIdx_spec (valid : List Understanding) (bs : List (List Understanding))
    (hgs : GoodState valid bs) (hnd : (valid.map Understanding.id).Nodup)
    {u : Understanding} (hu : u ∈ valid) :
    ∃ k : Nat, findClusterIdx bs u.id = (k : Int) ∧ k < bs.length ∧ u ∈ bs.getD k [] := by
  have huf : u ∈ bs.flatten := hgs.1.mem_iff.mpr hu
  obtain ⟨b, hb, hub⟩ := List.mem_flatten.mp huf
  obtain ⟨k₀, hk₀, he⟩ := List.getElem_of_mem hb
  have hmatch : ((bs.getD k₀ []).any fun w => w.id == u.id) = true := by
    rw [List.getD_eq_getElem _ _ hk₀, he]
    exact List.any_eq_true.mpr ⟨u, hub, by simp⟩
  have huniq : ∀ k, k < bs.length →
      ((bs.getD k []).any fun w => w.id == u.id) = true → k = k₀ := by
    intro k hk hany
    rw [List.getD_eq_getElem _ _ hk] at hany
    obtain ⟨w, hw, hwid⟩ := List.any_eq_true.mp hany
    have hwu : w = u := by
      refine id_inj_on_flatten valid bs hgs hnd ?_ huf (by simpa using hwid)
      exact List.mem_flatten.mpr ⟨bs[k], List.getElem_mem hk, hw⟩
    subst hwu
    exact block_position_unique valid bs hgs hnd hk hk₀ hw (he ▸ hub)
  refine ⟨k₀, ?_, hk₀, by rw [List.getD_eq_getElem _ _ hk₀, he]; exact hub⟩
  rw [findClusterIdx_eq_lastMatchFold]
  exact lastMatchFold_uniq _ _ k₀ hk₀ hmatch huniq

/-- `findClusterIdx` returns `-1` or a matching block index. -/
lemma findClusterIdx_cases (bs : List (List Understanding)) (tid : String) :
    findClusterIdx bs tid = -1 ∨
      ∃ k : Nat, k < bs.length ∧ findClusterIdx bs tid = (k : Int) := by
  rw [findClusterIdx_eq_lastMatchFold]
  rcases lastMatchFold_cases (fun k => (bs.getD k []).any fun u => u.id == tid) bs.length with
    h | ⟨k, hk, _, hval⟩
  · exact Or.inl h
  · exact Or.inr ⟨k, hk, hval⟩

/-! ### The merge step -/

/-- The merge step preserves goodness of the state. -/
lemma applyMerge_goodState (valid : List Understanding) (bs : List (List Understanding))
    (idI idJ : String) (s : ℝ) (hgs : GoodState valid bs) :
    GoodState valid (applyMerge bs idI idJ s) := by
  simp only [applyMerge]
  split_ifs with hθ hguard
  · obtain ⟨hne, hI, hJ⟩ := hguard
    rcases findClusterIdx_cases bs idI with h | ⟨kI, hkI, heI⟩
    · exact absurd h hI
    rcases findClusterIdx_cases bs idJ with h | ⟨kJ, hkJ, heJ⟩
    · exact absurd h hJ
    rw [heI, heJ] at hne ⊢
    simp only [Int.toNat_natCast]
    have hkne : kI ≠ kJ := fun h => hne (by rw [h])
    constructor
    · exact (flatten_set_eraseIdx_perm bs kI kJ hkne hkI hkJ).trans hgs.1
    · intro b hb
      rcases mem_set_eraseIdx_cases _ _ _ _ _ hb with hb1 | hb1
      · subst hb1
        have h1 : bs.getD kI [] ≠ [] := by
          rw [List.getD_eq_getElem _ _ hkI]
          exact hgs.2 _ (List.getElem_mem hkI)
        intro hcontra
        rw [List.append_eq_nil] at hcontra
        exact h1 hcontra.1
      · exact hgs.2 _ hb1
  · exact hgs
  · exact hgs

/-- The merge step never separates understandings that already share a
block. -/
lemma applyMerge_mono (bs : List (List Understanding)) (idI idJ : String) (s : ℝ)
    {x y : Understanding} (h : SameCluster bs x y) :
    SameCluster (applyMerge bs idI idJ s) x y := by
  simp only [applyMerge]
  split_ifs with hθ hguard
  · obtain ⟨hne, hI, hJ⟩ := hguard
    rcases findClusterIdx_cases bs idI with hc | ⟨kI, hkI, heI⟩
    · exact absurd hc hI
    rcases findClusterIdx_cases bs idJ with hc | ⟨kJ, hkJ, heJ⟩
    · exact absurd hc hJ
    rw [heI, heJ] at hne ⊢
    simp only [Int.toNat_natCast]
    have hkne : kI ≠ kJ := fun hh => hne (by rw [hh])
    obtain ⟨b, hb, hx, hy⟩ := h
    obtain ⟨k, hk, he⟩ := List.getElem_of_mem hb
    by_cases hkIe : k = kI
    · subst hkIe
      refine ⟨(bs.getD k []) ++ (bs.getD kJ []), set_mem_eraseIdx bs k kJ _ hk hkJ hkne, ?_, ?_⟩
      · exact List.mem_append_left _ (by rw [List.getD_eq_getElem _ _ hk, he]; exact hx)
      · exact List.mem_append_left _ (by rw [List.getD_eq_getElem _ _ hk, he]; exact hy)
    · by_cases hkJe : k = kJ
      · subst hkJe
        refine ⟨(bs.getD kI []) ++ (bs.getD k []), set_mem_eraseIdx bs kI k _ hkI hk hkne, ?_, ?_⟩
        · exact List.mem_append_right _ (by rw [List.getD_eq_getElem _ _ hk, he]; exact hx)
        · exact List.mem_append_right _ (by rw [List.getD_eq_getElem _ _ hk, he]; exact hy)
      · refine ⟨b, ?_, hx, hy⟩
        have := getElem_mem_set_eraseIdx bs kI kJ k
          ((bs.getD kI []) ++ (bs.getD kJ [])) hk hkJ hkIe hkJe
        rwa [he] at this
  · exact h
  · exact h

/-- What a shared block after the merge step means in terms of the previous
state: either the pair already shared a block, or the similarity reached the
threshold and the pair is linked through the two merged understandings. -/
lemma applyMerge_inv (valid : List Understanding) (bs : List (List Understanding))
    (hgs : GoodState valid bs) (hnd : (valid.map Understanding.id).Nodup)
    {a b : Understanding} (ha : a ∈ valid) (hb : b ∈ valid) {x y : Understanding}
    {s : ℝ} (h : SameCluster (applyMerge bs a.id b.id s) x y) :
    SameCluster bs x y ∨
      (SIMILARITY_THRESHOLD ≤ s ∧
        ((SameCluster bs x a ∧ SameCluster bs y b) ∨
          (SameCluster bs x b ∧ SameCluster bs y a))) := by
  simp only [applyMerge] at h
  split_ifs at h with hθ hguard
  · obtain ⟨kA, heA, hkA, haA⟩ := findClusterIdx_spec valid bs hgs hnd ha
    obtain ⟨kB, heB, hkB, hbB⟩ := findClusterIdx_spec valid bs hgs hnd hb
    rw [heA, heB] at h
    simp only [Int.toNat_natCast] at h
    obtain ⟨blk, hblk, hx, hy⟩ := h
    rcases mem_set_eraseIdx_cases _ _ _ _ _ hblk with hb1 | hb1
    · subst hb1
      have hblkA : bs.getD kA [] ∈ bs := by
        rw [List.getD_eq_getElem _ _ hkA]; exact List.getElem_mem hkA
      have hblkB : bs.getD kB [] ∈ bs := by
        rw [List.getD_eq_getElem _ _ hkB]; exact List.getElem_mem hkB
      rcases List.mem_append.mp hx with hxA | hxB <;>
        rcases List.mem_append.mp hy with hyA | hyB
      · exact Or.inl ⟨bs.getD kA [], hblkA, hxA, hyA⟩
      · exact Or.inr ⟨hθ, Or.inl ⟨⟨bs.getD kA [], hblkA, hxA, haA⟩,
          ⟨bs.getD kB [], hblkB, hyB, hbB⟩⟩⟩
      · exact Or.inr ⟨hθ, Or.inr ⟨⟨bs.getD kB [], hblkB, hxB, hbB⟩,
          ⟨bs.getD kA [], hblkA, hyA, haA⟩⟩⟩
      · exact Or.inl ⟨bs.getD kB [], hblkB, hxB, hyB⟩
    · exact Or.inl ⟨blk, hb1, hx, hy⟩
  · exact Or.inl h
  · exact Or.inl h

/-- After a merge step triggered by a reached threshold, the two
understandings share a block. -/
lemma applyMerge_joins (valid : List Understanding) (bs : List (List Understanding))
    (hgs : GoodState valid bs) (hnd : (valid.map Understanding.id).Nodup)
    {a b : Understanding} (ha : a ∈ valid) (hb : b ∈ valid) {s : ℝ}
    (hθ : SIMILARITY_THRESHOLD ≤ s) :
    SameCluster (applyMerge bs a.id b.id s) a b := by
  obtain ⟨kA, heA, hkA, haA⟩ := findClusterIdx_spec valid bs hgs hnd ha
  obtain ⟨kB, heB, hkB, hbB⟩ := findClusterIdx_spec valid bs hgs hnd hb
  simp only [applyMerge]
  rw [if_pos hθ]
  split_ifs with hguard
  · obtain ⟨hne, _, _⟩ := hguard
    rw [heA, heB] at hne ⊢
    simp only [Int.toNat_natCast]
    have hkne : kA ≠ kB := fun hh => hne (by rw [hh])
    exact ⟨(bs.getD kA []) ++ (bs.getD kB []), set_mem_eraseIdx bs kA kB _ hkA hkB hkne,
      List.mem_append_left _ haA, List.mem_append_right _ hbB⟩
  · have hkk : kA = kB := by
      rw [heA, heB] at hguard
      push_neg at hguard
      by_contra hne
      have h1 : (kA : Int) ≠ (kB : Int) := fun hh => hne (by exact_mod_cast hh)
      have h2 : (kA : Int) ≠ -1 := by omega
      have h3 : (kB : Int) ≠ -1 := by omega
      exact h1 (by tauto)
    refine ⟨bs.getD kA [], ?_, haA, hkk ▸ hbB⟩
    rw [List.getD_eq_getElem _ _ hkA]
    exact List.getElem_mem hkA

/-! ### The pair loop -/

/-- The pair loop preserves goodness of the state. -/
lemma runPairs_goodState (valid : List Understanding) :
    ∀ (P : List (Nat × Nat)) (bs bs' : List (List Understanding)),
      runPairs valid P bs = .ok bs' → GoodState valid bs → GoodState valid bs'
  | [], bs, bs', h, hgs => by
    simp only [runPairs] at h
    exact (Except.ok.inj h) ▸ hgs
  | (i, j) :: rest, bs, bs', h, hgs => by
    simp only [runPairs] at h
    rcases hc : cosineSimilarity (embOf (valid.getD i default)) (embOf (valid.getD j default))
      with e | s
    · rw [hc] at h; exact absurd h (by simp)
    · rw [hc] at h
      exact runPairs_goodState valid rest _ bs' h
        (applyMerge_goodState valid bs _ _ s hgs)

/-- The pair loop never separates understandings that already share a
block. -/
lemma runPairs_mono (valid : List Understanding) :
    ∀ (P : List (Nat × Nat)) (bs bs' : List (List Understanding)),
      runPairs valid P bs = .ok bs' → ∀ {x y : Understanding},
        SameCluster bs x y → SameCluster bs' x y
  | [], bs, bs', h, x, y, hxy => by
    simp only [runPairs] at h
    exact (Except.ok.inj h) ▸ hxy
  | (i, j) :: rest, bs, bs', h, x, y, hxy => by
    simp only [runPairs] at h
    rcases hc : cosineSimilarity (embOf (valid.getD i default)) (embOf (valid.getD j default))
      with e | s
    · rw [hc] at h; exact absurd h (by simp)
    · rw [hc] at h
      exact runPairs_mono valid rest _ bs' h (applyMerge_mono bs _ _ s hxy)

/-- Soundness of the pair loop: a shared block in the final state is
explained by shared blocks of the initial state and processed edges. -/
lemma runPairs_sound (valid : List Understanding)
    (hnd : (valid.map Understanding.id).Nodup) :
    ∀ (P : List (Nat × Nat)) (bs bs' : List (List Understanding)),
      runPairs valid P bs = .ok bs' → GoodState valid bs →
      (∀ p ∈ P, p.1 < valid.length ∧ p.2 < valid.length) →
      ∀ x y, SameCluster bs' x y →
        Relation.ReflTransGen
          (fun u v => SameCluster bs u v ∨ PairEdge valid P u v) x y
  | [], bs, bs', h, _, _, x, y, hxy => by
    simp only [runPairs] at h
    exact Relation.ReflTransGen.single (Or.inl ((Except.ok.inj h) ▸ hxy))
  | (i, j) :: rest, bs, bs', h, hgs, hP, x, y, hxy => by
    simp only [runPairs] at h
    rcases hc : cosineSimilarity (embOf (valid.getD i default)) (embOf (valid.getD j default))
      with e | s
    · rw [hc] at h; exact absurd h (by simp)
    rw [hc] at h
    have hbounds := hP (i, j) (List.mem_cons_self _ _)
    have ha : valid.getD i default ∈ valid := by
      rw [List.getD_eq_getElem _ _ hbounds.1]; exact List.getElem_mem hbounds.1
    have hb : valid.getD j default ∈ valid := by
      rw [List.getD_eq_getElem _ _ hbounds.2]; exact List.getElem_mem hbounds.2
    have hgs₁ := applyMerge_goodState valid bs
      (valid.getD i default).id (valid.getD j default).id s hgs
    have hstep := runPairs_sound valid hnd rest _ bs' h hgs₁
      (fun p hp => hP p (List.mem_cons_of_mem _ hp)) x y hxy
    have hval : s = cosSimVal (embOf (valid.getD i default)) (embOf (valid.getD j default)) :=
      (cosineSimilarity_ok_inv hc).2
    have hconv : ∀ u v,
        (SameCluster (applyMerge bs (valid.getD i default).id (valid.getD j default).id s) u v ∨
          PairEdge valid rest u v) →
        Relation.ReflTransGen
          (fun u v => SameCluster bs u v ∨ PairEdge valid ((i, j) :: rest) u v) u v := by
      intro u v huv
      rcases huv with huv | huv
      · rcases applyMerge_inv valid bs hgs hnd ha hb huv with hsc | ⟨hθ, hcross⟩
        · exact Relation.ReflTransGen.single (Or.inl hsc)
        · have hedge : PairEdge valid ((i, j) :: rest)
              (valid.getD i default) (valid.getD j default) :=
            ⟨(i, j), List.mem_cons_self _ _, hbounds.1, hbounds.2, hval ▸ hθ,
              Or.inl ⟨rfl, rfl⟩⟩
          have hedge2 : PairEdge valid ((i, j) :: rest)
              (valid.getD j default) (valid.getD i default) :=
            ⟨(i, j), List.mem_cons_self _ _, hbounds.1, hbounds.2, hval ▸ hθ,
              Or.inr ⟨rfl, rfl⟩⟩
          rcases hcross with ⟨hua, hvb⟩ | ⟨hub, hva⟩
          · refine Relation.ReflTransGen.trans
              (Relation.ReflTransGen.single (Or.inl hua)) ?_
            refine Relation.ReflTransGen.trans
              (Relation.ReflTransGen.single (Or.inr hedge)) ?_
            exact Relation.ReflTransGen.single (Or.inl (sameCluster_symm hvb))
          · refine Relation.ReflTransGen.trans
              (Relation.ReflTransGen.single (Or.inl hub)) ?_
            refine Relation.ReflTransGen.trans
              (Relation.ReflTransGen.single (Or.inr hedge2)) ?_
            exact Relation.ReflTransGen.single (Or.inl (sameCluster_symm hva))
      · exact Relation.ReflTransGen.single
          (Or.inr (by obtain ⟨p, hp, rest'⟩ := huv; exact ⟨p, List.mem_cons_of_mem _ hp, rest'⟩))
    clear hc h hxy
    induction hstep with
    | refl => exact Relation.ReflTransGen.refl
    | tail hxb hbc ihh => exact ihh.trans (hconv _ _ hbc)

/-- Completeness of the pair loop for single edges: a processed pair whose
similarity reaches the threshold ends up in a shared block. -/
lemma runPairs_edge (valid : List Understanding)
    (hnd : (valid.map Understanding.id).Nodup) :
    ∀ (P : List (Nat × Nat)) (bs bs' : List (List Understanding)),
      runPairs valid P bs = .ok bs' → GoodState valid bs →
      ∀ i j, (i, j) ∈ P → i < valid.length → j < valid.length →
        SIMILARITY_THRESHOLD ≤
          cosSimVal (embOf (valid.getD i default)) (embOf (valid.getD j default)) →
        SameCluster bs' (valid.getD i default) (valid.getD j default)
  | [], bs, bs', h, hgs, i, j, hmem, _, _, _ => by simp at hmem
  | (i₀, j₀) :: rest, bs, bs', h, hgs, i, j, hmem, hi, hj, hθ => by
    simp only [runPairs] at h
    rcases hc : cosineSimilarity (embOf (valid.getD i₀ default)) (embOf (valid.getD j₀ default))
      with e | s
    · rw [hc] at h; exact absurd h (by simp)
    rw [hc] at h
    rcases List.mem_cons.mp hmem with heq | hmem'
    · have hi0 : i = i₀ := congrArg Prod.fst heq
      have hj0 : j = j₀ := congrArg Prod.snd heq
      subst hi0; subst hj0
      have ha : valid.getD i default ∈ valid := by
        rw [List.getD_eq_getElem _ _ hi]; exact List.getElem_mem hi
      have hb : valid.getD j default ∈ valid := by
        rw [List.getD_eq_getElem _ _ hj]; exact List.getElem_mem hj
      have hval : s = cosSimVal (embOf (valid.getD i default)) (embOf (valid.getD j default)) :=
        (cosineSimilarity_ok_inv hc).2
      exact runPairs_mono valid rest _ bs' h
        (applyMerge_joins valid bs hgs hnd ha hb (hval ▸ hθ))
    · exact runPairs_edge valid hnd rest _ bs' h
        (applyMerge_goodState valid bs _ _ s hgs) i j hmem' hi hj hθ

/-! ### Connectivity of the similarity graph -/

/-- `Linked` is symmetric. -/
lemma linked_symm (valid : List Understanding) {x y : Understanding}
    (h : Linked valid x y) : Linked valid y x :=
  ⟨h.2.1, h.1, (h.2.2.1).symm, (cosSimVal_comm (embOf x) (embOf y)) ▸ h.2.2.2⟩

/-- Flattening singleton blocks recovers the original list. -/
lemma flatten_map_singleton (l : List Understanding) :
    (l.map fun u => [u]).flatten = l := by
  induction l with
  | nil => rfl
  | cons x xs ih => simp [ih]

/-- The initial state of the pair loop is good. -/
lemma initState_goodState (valid : List Understanding) :
    GoodState valid (valid.map fun u => [u]) := by
  constructor
  · rw [flatten_map_singleton]
  · intro b hb
    obtain ⟨u, _, he⟩ := List.mem_map.mp hb
    simp [← he]

/-- A shared block in the initial singleton state means equality. -/
lemma sameCluster_init (l : List Understanding) {x y : Understanding}
    (h : SameCluster (l.map fun u => [u]) x y) : x = y ∧ x ∈ l := by
  obtain ⟨b, hb, hx, hy⟩ := h
  obtain ⟨u, hu, he⟩ := List.mem_map.mp hb
  subst he
  simp only [List.mem_singleton] at hx hy
  exact ⟨hx.trans hy.symm, hx ▸ hu⟩

/-- Collapsing a closure whose steps are equalities or steps of `s`. -/
lemma rtg_collapse {α : Type} (r s : α → α → Prop)
    (hcol : ∀ u v, r u v → u = v ∨ s u v) {x y : α}
    (h : Relation.ReflTransGen r x y) : Relation.ReflTransGen s x y := by
  induction h with
  | refl => exact Relation.ReflTransGen.refl
  | tail hxb hbc ihh =>
    rcases hcol _ _ hbc with he | hs
    · exact he ▸ ihh
    · exact ihh.tail hs

/-- Membership in the pair list: exactly the in-range pairs `(i, j)` with
`i < j`. -/
lemma mem_pairList (n : Nat) (i j : Nat) :
    (i, j) ∈ pairList n ↔ i < j ∧ j < n := by
  rw [pairList]
  constructor
  · intro h
    obtain ⟨a, ha, hmem⟩ := List.mem_flatMap.mp h
    obtain ⟨b, hb, he⟩ := List.mem_map.mp hmem
    obtain ⟨hb1, hb2⟩ := List.mem_filter.mp hb
    have hia : i = a := (congrArg Prod.fst he).symm
    have hjb : j = b := (congrArg Prod.snd he).symm
    subst hia; subst hjb
    exact ⟨by simpa using hb2, List.mem_range.mp hb1⟩
  · intro ⟨hij, hjn⟩
    refine List.mem_flatMap.mpr ⟨i, List.mem_range.mpr (by omega), ?_⟩
    refine List.mem_map.mpr ⟨j, List.mem_filter.mpr ⟨List.mem_range.mpr hjn, by simpa using hij⟩, rfl⟩

/-- The partition computed by the pair loop from the singleton state is the
partition into connected components of the threshold graph, for any pair list
that is in range, irreflexive and covers every unordered pair. -/
lemma runPairs_partition_iff (valid : List Understanding)
    (hnd : (valid.map Understanding.id).Nodup) (P : List (Nat × Nat))
    (bs' : List (List Understanding))
    (hP : ∀ p ∈ P, p.1 < valid.length ∧ p.2 < valid.length)
    (hPne : ∀ p ∈ P, p.1 ≠ p.2)
    (hcov : ∀ i j, i < j → j < valid.length → (i, j) ∈ P)
    (hrun : runPairs valid P (valid.map fun u => [u]) = .ok bs') :
    ∀ x y, SameCluster bs' x y ↔ (x ∈ valid ∧ Connected valid x y) := by
  have hgs₀ := initState_goodState valid
  have hgs' := runPairs_goodState valid P _ bs' hrun hgs₀
  have hndv : valid.Nodup := hnd.of_map
  intro x y
  constructor
  · intro hxy
    constructor
    · obtain ⟨b, hb, hx, _⟩ := hxy
      exact hgs'.1.mem_iff.mp (List.mem_flatten.mpr ⟨b, hb, hx⟩)
    · have hrtg := runPairs_sound valid hnd P _ bs' hrun hgs₀ hP x y hxy
      refine rtg_collapse _ _ ?_ hrtg
      intro u v huv
      rcases huv with huv | huv
      · exact Or.inl (sameCluster_init valid huv).1
      · obtain ⟨p, hp, hp1, hp2, hθ, hor⟩ := huv
        have hne : valid.getD p.1 default ≠ valid.getD p.2 default := by
          rw [List.getD_eq_getElem _ _ hp1, List.getD_eq_getElem _ _ hp2]
          intro he
          exact (hPne p hp) (hndv.getElem_inj_iff.mp he)
        have hm1 : valid.getD p.1 default ∈ valid := by
          rw [List.getD_eq_getElem _ _ hp1]; exact List.getElem_mem hp1
        have hm2 : valid.getD p.2 default ∈ valid := by
          rw [List.getD_eq_getElem _ _ hp2]; exact List.getElem_mem hp2
        rcases hor with ⟨he1, he2⟩ | ⟨he1, he2⟩
        · exact Or.inr (he1 ▸ he2 ▸ ⟨hm1, hm2, hne, hθ⟩)
        · exact Or.inr (he1 ▸ he2 ▸ linked_symm valid ⟨hm1, hm2, hne, hθ⟩)
  · intro ⟨hx, hconn⟩
    induction hconn with
    | refl =>
      obtain ⟨b, hb, hxb⟩ := List.mem_flatten.mp (hgs'.1.mem_iff.mpr hx)
      exact ⟨b, hb, hxb, hxb⟩
    | tail hxb hbc ihh =>
      rename_i b c
      have hscxb := ihh
      obtain ⟨hbv, hcv, hbc_ne, hθ⟩ := hbc
      obtain ⟨ib, hib, heb⟩ := List.getElem_of_mem hbv
      obtain ⟨ic, hic, hec⟩ := List.getElem_of_mem hcv
      have hineq : ib ≠ ic := by
        intro he
        subst he
        exact hbc_ne (heb.symm.trans hec)
      have hgb : valid.getD ib default = b := by rw [List.getD_eq_getElem _ _ hib, heb]
      have hgc : valid.getD ic default = c := by rw [List.getD_eq_getElem _ _ hic, hec]
      have hscbc : SameCluster bs' b c := by
        rcases Nat.lt_or_ge ib ic with hlt | hge
        · have := runPairs_edge valid hnd P _ bs' hrun hgs₀ ib ic
            (hcov ib ic hlt hic) hib hic (by rw [hgb, hgc]; exact hθ)
          rwa [hgb, hgc] at this
        · have hlt2 : ic < ib := by omega
          have := runPairs_edge valid hnd P _ bs' hrun hgs₀ ic ib
            (hcov ic ib hlt2 hib) hic hib
            (by rw [hgb, hgc]; exact (cosSimVal_comm (embOf b) (embOf c)) ▸ hθ)
          rw [hgb, hgc] at this
          exact sameCluster_symm this
      exact sameCluster_trans valid bs' hgs' hnd hscxb hscbc

/-! ### The stable sort by descending size -/

/-- Inserting is a permutation of consing. -/
lemma insertCluster_perm (c : List Understanding) (l : List (List Understanding)) :
    List.Perm (insertCluster c l) (c :: l) := by
  induction l with
  | nil => exact List.Perm.refl _
  | cons d ds ih =>
    rw [insertCluster]
    split_ifs with h
    · exact (ih.cons d).trans (List.Perm.swap _ _ _)
    · exact List.Perm.refl _

/-- The sort is a permutation of its input. -/
lemma sortClusters_perm (l : List (List Understanding)) :
    List.Perm (sortClusters l) l := by
  induction l with
  | nil => exact List.Perm.refl _
  | cons c cs ih =>
    rw [sortClusters]
    exact (insertCluster_perm c (sortClusters cs)).trans (ih.cons c)

/-- Inserting into a list sorted by non-increasing length keeps it sorted. -/
lemma insertCluster_sorted (c : List Understanding) (l : List (List Understanding))
    (h : l.Pairwise fun a b => b.length ≤ a.length) :
    (insertCluster c l).Pairwise fun a b => b.length ≤ a.length := by
  induction l with
  | nil => simp [insertCluster]
  | cons d ds ih =>
    rw [insertCluster]
    rw [List.pairwise_cons] at h
    split_ifs with hlt
    · refine List.pairwise_cons.mpr ⟨?_, ih h.2⟩
      intro x hx
      have hx2 : x = c ∨ x ∈ ds := by
        have := (insertCluster_perm c ds).mem_iff.mp hx
        simpa using this
      rcases hx2 with rfl | hx2
      · exact Nat.le_of_lt hlt
      · exact h.1 x hx2
    · refine List.pairwise_cons.mpr ⟨?_, List.pairwise_cons.mpr h⟩
      intro x hx
      rcases List.mem_cons.mp hx with rfl | hx2
      · omega
      · exact le_trans (h.1 x hx2) (by omega)

/-- The sort output is sorted by non-increasing length. -/
lemma sortClusters_sorted (l : List (List Understanding)) :
    (sortClusters l).Pairwise fun a b => b.length ≤ a.length := by
  induction l with
  | nil => simp [sortClusters]
  | cons c cs ih => exact insertCluster_sorted c (sortClusters cs) ih

/-- Filtering a fixed length commutes with insertion: the inserted cluster
lands in front of the equal-length ones. -/
lemma insertCluster_filter (c : List Understanding) (l : List (List Understanding)) (k : Nat) :
    (insertCluster c l).filter (fun b => b.length == k) =
      if c.length = k then c :: l.filter (fun b => b.length == k)
      else l.filter (fun b => b.length == k) := by
  induction l with
  | nil =>
    rw [insertCluster]
    by_cases hc : c.length = k <;> simp [List.filter_cons, hc]
  | cons d ds ih =>
    by_cases hlt : c.length < d.length
    · rw [insertCluster, if_pos hlt]
      by_cases hd : d.length = k
      · have hck : ¬c.length = k := by omega
        simp [List.filter_cons, ih, hd, hck]
      · by_cases hc : c.length = k <;> simp [List.filter_cons, ih, hd, hc]
    · rw [insertCluster, if_neg hlt]
      by_cases hc : c.length = k <;> simp [List.filter_cons, hc]

/-- The sort is stable: the sublist of clusters of any fixed size is
unchanged. -/
lemma sortClusters_filter (l : List (List Understanding)) (k : Nat) :
    (sortClusters l).filter (fun b => b.length == k) =
      l.filter (fun b => b.length == k) := by
  induction l with
  | nil => rfl
  | cons c cs ih =>
    rw [sortClusters, insertCluster_filter]
    by_cases hc : c.length = k <;> simp [List.filter_cons, hc, ih]

/-! ### Representative selection -/

/-- A successful similarity sum computes `simSumOver`. -/
lemma sumSimilarities_ok_inv (c : List Understanding) (i : Nat) :
    ∀ (js : List Nat) (v : ℝ), sumSimilarities c i js = .ok v → v = simSumOver c i js
  | [], v, h => by
    simp only [sumSimilarities] at h
    simp [simSumOver, ← Except.ok.inj h]
  | j :: js, v, h => by
    simp only [sumSimilarities] at h
    split_ifs at h with hij
    · rw [sumSimilarities_ok_inv c i js v h, simSumOver, simSumOver,
        List.filter_cons, if_neg (by simpa using hij)]
    · rcases hc : cosineSimilarity (embOf (c.getD i default)) (embOf (c.getD j default))
        with e | s
      · rw [hc] at h; exact absurd h (by simp)
      rw [hc] at h
      rcases hr : sumSimilarities c i js with e | r
      · rw [hr] at h; exact absurd h (by simp)
      rw [hr] at h
      have hv : v = s + r := (Except.ok.inj h).symm
      rw [hv, (cosineSimilarity_ok_inv hc).2, sumSimilarities_ok_inv c i js r hr,
        simSumOver, simSumOver, List.filter_cons, if_pos (by simpa using hij)]
      simp

/-- A successful representative fold computes the pure fold of `pureStep`. -/
lemma repFold_ok_inv (c : List Understanding) :
    ∀ (js : List Nat) (st out : Nat × ℝ), repFold c js st = .ok out →
      out = js.foldl (pureStep c) st
  | [], st, out, h => by
    simp only [repFold] at h
    simp [← Except.ok.inj h]
  | i :: js, st, out, h => by
    simp only [repFold] at h
    rcases hs : sumSimilarities c i (List.range c.length) with e | t
    · rw [hs] at h; exact absurd h (by simp)
    rw [hs] at h
    dsimp only at h
    have havg : t / ((c.length : ℝ) - 1) = avgSimWithin c i := by
      rw [sumSimilarities_ok_inv c i _ t hs, avgSimWithin]
    rw [List.foldl_cons]
    split_ifs at h with hgt
    · rw [repFold_ok_inv c js _ out h]
      congr 1
      rw [pureStep, if_pos (by rw [← havg]; exact hgt), havg]
    · rw [repFold_ok_inv c js _ out h]
      congr 1
      rw [pureStep, if_neg (by rw [← havg]; exact hgt)]

/-- A list of reals each at least `-1` sums to at least minus its length. -/
lemma neg_length_le_sum (l : List ℝ) (h : ∀ x ∈ l, -1 ≤ x) :
    -(l.length : ℝ) ≤ l.sum := by
  induction l with
  | nil => simp
  | cons x xs ih =>
    have hx := h x (by simp)
    have hxs := ih fun y hy => h y (by simp [hy])
    simp only [List.sum_cons, List.length_cons]
    push_cast
    linarith

/-- Length of the index range with one index removed. -/
lemma length_filter_ne_range (n i : Nat) (h : i < n) :
    ((List.range n).filter fun j => decide (i ≠ j)).length = n - 1 := by
  induction n with
  | zero => omega
  | succ m ih =>
    rw [List.range_succ, List.filter_append]
    rcases Nat.lt_or_ge i m with him | him
    · rw [List.length_append, ih him]
      have hne : i ≠ m := by omega
      simp [hne]
      omega
    · have him2 : i = m := by omega
      subst him2
      have hall : (List.range i).filter (fun j => decide (i ≠ j)) = List.range i := by
        apply List.filter_eq_self.mpr
        intro a ha
        have := List.mem_range.mp ha
        simpa using by omega
      rw [hall]
      simp

/-- For a cluster with at least two members, every average similarity is at
least `-1`. -/
lemma neg_one_le_avgSimWithin (c : List Understanding) (hn : 2 ≤ c.length)
    (i : Nat) (hi : i < c.length) : -1 ≤ avgSimWithin c i := by
  rw [avgSimWithin, simSumOver]
  set l := ((List.range c.length).filter fun j => decide (i ≠ j)).map fun j =>
    cosSimVal (embOf (c.getD i default)) (embOf (c.getD j default)) with hl
  have hlen : l.length = c.length - 1 := by
    rw [hl, List.length_map, length_filter_ne_range _ _ hi]
  have hsum : -(l.length : ℝ) ≤ l.sum := by
    refine neg_length_le_sum l ?_
    intro x hx
    obtain ⟨j, _, he⟩ := List.mem_map.mp (hl ▸ hx)
    exact he ▸ neg_one_le_cosSimVal _ _
  have hpos : (0 : ℝ) < (c.length : ℝ) - 1 := by
    have : (2 : ℝ) ≤ (c.length : ℝ) := by exact_mod_cast hn
    linarith
  rw [le_div_iff hpos]
  have : -(l.length : ℝ) = -((c.length : ℝ) - 1) := by
    rw [hlen]
    have : ((c.length - 1 : Nat) : ℝ) = (c.length : ℝ) - 1 := by
      have : (1 : ℝ) ≤ (c.length : ℝ) := by exact_mod_cast le_trans (by omega) hn
      push_cast [Nat.cast_sub (by omega : 1 ≤ c.length)]
      ring
    rw [this]
  linarith [hsum, this ▸ hsum]

/-- Invariant of the pure representative fold over an index range. -/
lemma pureFold_invariant (c : List Understanding) (n : Nat) :
    (List.range n).foldl (pureStep c) (0, -1) = ((0 : Nat), (-1 : ℝ)) ∧
      (∀ i, i < n → avgSimWithin c i ≤ -1) ∨
    (((List.range n).foldl (pureStep c) (0, -1)).1 < n ∧
      avgSimWithin c ((List.range n).foldl (pureStep c) (0, -1)).1 =
        ((List.range n).foldl (pureStep c) (0, -1)).2 ∧
      (∀ i, i < n → avgSimWithin c i ≤ ((List.range n).foldl (pureStep c) (0, -1)).2) ∧
      ∀ i, i < ((List.range n).foldl (pureStep c) (0, -1)).1 →
        avgSimWithin c i < ((List.range n).foldl (pureStep c) (0, -1)).2) := by
  induction n with
  | zero => exact Or.inl ⟨rfl, by omega⟩
  | succ m ih =>
    rw [List.range_succ, List.foldl_append, List.foldl_cons, List.foldl_nil]
    set st := (List.range m).foldl (pureStep c) (0, -1) with hst
    by_cases hgt : avgSimWithin c m > st.2
    · right
      rw [pureStep, if_pos hgt]
      refine ⟨by omega, rfl, ?_, ?_⟩
      · intro i hi
        rcases Nat.lt_or_ge i m with him | him
        · rcases ih with ⟨hval, hbnd⟩ | ⟨_, _, hbnd, _⟩
          · have := hbnd i him
            have hm1 : st.2 = -1 := by rw [hval]
            simp only []
            rw [hm1] at hgt
            linarith
          · have := hbnd i him
            simp only []
            linarith
        · have : i = m := by omega
          subst this
          simp
      · intro i hi
        simp only [] at hi ⊢
        rcases ih with ⟨hval, hbnd⟩ | ⟨_, _, hbnd, _⟩
        · have := hbnd i hi
          have hm1 : st.2 = -1 := by rw [hval]
          rw [hm1] at hgt
          linarith
        · have := hbnd i hi
          linarith
    · rw [pureStep, if_neg hgt]
      rcases ih with ⟨hval, hbnd⟩ | ⟨h1, h2, h3, h4⟩
      · left
        refine ⟨hval, ?_⟩
        intro i hi
        rcases Nat.lt_or_ge i m with him | him
        · exact hbnd i him
        · have : i = m := by omega
          subst this
          have hm1 : st.2 = -1 := by rw [hval]
          rw [hm1] at hgt
          linarith
      · right
        refine ⟨by omega, h2, ?_, h4⟩
        intro i hi
        rcases Nat.lt_or_ge i m with him | him
        · exact h3 i him
        · have : i = m := by omega
          subst this
          linarith

/-- Specification of the representative index: it is the first index
attaining the maximal average similarity within the cluster. -/
lemma repSelect_spec (c : List Understanding) (ri : Nat)
    (h : repSelect c = .ok ri) (hne : c ≠ []) :
    ri < c.length ∧ (∀ j, j < c.length → avgSimWithin c j ≤ avgSimWithin c ri) ∧
      ∀ j, j < ri → avgSimWithin c j < avgSimWithin c ri := by
  rw [repSelect] at h
  split_ifs at h with hlen
  · rcases hf : repFold c (List.range c.length) (0, -1) with e | st
    · rw [hf] at h; exact absurd h (by simp)
    rw [hf] at h
    have hri : ri = st.1 := (Except.ok.inj h).symm
    have hfold := repFold_ok_inv c (List.range c.length) (0, -1) st hf
    have hbound := fun i hi => neg_one_le_avgSimWithin c (by omega) i hi
    rcases pureFold_invariant c c.length with ⟨hval, hbnd⟩ | ⟨h1, h2, h3, h4⟩
    · have hst : st = ((0 : Nat), (-1 : ℝ)) := by rw [hfold, hval]
      have hri0 : ri = 0 := by rw [hri, hst]
      subst hri0
      refine ⟨by omega, ?_, by omega⟩
      intro j hj
      have hj1 := hbnd j hj
      have hj2 := hbound j hj
      have h01 := hbnd 0 (by omega)
      have h02 := hbound 0 (by omega)
      linarith
    · rw [← hfold] at h1 h2 h3 h4
      rw [hri]
      exact ⟨h1, fun j hj => h2 ▸ h3 j hj, fun j hj => h2 ▸ h4 j hj⟩
  · have hri : ri = 0 := (Except.ok.inj h).symm
    have hlen1 : c.length = 1 := by
      have : c.length ≠ 0 := fun hz => hne (List.length_eq_zero.mp hz)
      omega
    subst hri
    refine ⟨by omega, ?_, by omega⟩
    intro j hj
    have : j = 0 := by omega
    subst this
    exact le_refl _

/-! ### Building the cluster records -/

/-- Structure of a successful `buildClusters` run: the records keep the
blocks in order, get consecutive ids, and carry the size, percentage and
representative text computed from their block. -/
lemma buildClusters_ok_inv (total : Nat) :
    ∀ (idx : Nat) (bs : List (List Understanding)) (cs : List Cluster),
      buildClusters total idx bs = .ok cs →
      cs.map Cluster.understandings = bs ∧
      cs.map Cluster.id = List.range' (idx + 1) bs.length 1 ∧
      ∀ cl ∈ cs, cl.size = cl.understandings.length ∧
        cl.percentage = ((cl.understandings.length : ℝ) / (total : ℝ)) * 100 ∧
        ∃ ri, repSelect cl.understandings = .ok ri ∧
          cl.representative_text = (cl.understandings.getD ri default).understanding_text
  | idx, [], cs, h => by
    simp only [buildClusters] at h
    have : cs = [] := (Except.ok.inj h).symm
    subst this
    simp
  | idx, c :: bs, cs, h => by
    simp only [buildClusters] at h
    rcases hr : repSelect c with e | ri
    · rw [hr] at h; exact absurd h (by simp)
    rw [hr] at h
    rcases hb : buildClusters total (idx + 1) bs with e | rest
    · rw [hb] at h; exact absurd h (by simp)
    rw [hb] at h
    dsimp only at h
    have hcs : cs = { id := idx + 1
                      understandings := c
                      representative_text := (c.getD ri default).understanding_text
                      size := c.length
                      percentage := ((c.length : ℝ) / (total : ℝ)) * 100 } :: rest :=
      (Except.ok.inj h).symm
    subst hcs
    obtain ⟨ih1, ih2, ih3⟩ := buildClusters_ok_inv total (idx + 1) bs rest hb
    refine ⟨by simp [ih1], ?_, ?_⟩
    · simp only [List.map_cons, ih2, List.length_cons, List.range'_succ]
    · intro cl hcl
      rcases List.mem_cons.mp hcl with rfl | hcl2
      · exact ⟨rfl, rfl, ri, hr, rfl⟩
      · exact ih3 cl hcl2

/-- Structure of a successful `clusterUnderstandings` run: either there are
no valid understandings and the result is empty, or the result is built from
the sorted merge of the valid understandings. -/
lemma clusterUnderstandings_ok_inv (us : List Understanding) (cs : List Cluster)
    (h : clusterUnderstandings us = .ok cs) :
    (validOf us = [] ∧ cs = []) ∨
      ∃ merged,
        runPairs (validOf us) (pairList (validOf us).length)
            ((validOf us).map fun u => [u]) = .ok merged ∧
          buildClusters (validOf us).length 0 (sortClusters merged) = .ok cs := by
  simp only [clusterUnderstandings] at h
  split_ifs at h with hlen
  · exact Or.inl ⟨List.length_eq_zero.mp hlen, (Except.ok.inj h).symm⟩
  · rcases hm : runPairs (us.filter hasUsableEmbedding)
        (pairList (us.filter hasUsableEmbedding).length)
        ((us.filter hasUsableEmbedding).map fun u => [u]) with e | merged
    · rw [hm] at h; exact absurd h (by simp)
    · rw [hm] at h
      exact Or.inr ⟨merged, hm, h⟩

/-- The pair list is in range and irreflexive, and covers every unordered
pair. -/
lemma pairList_facts (n : Nat) :
    (∀ p ∈ pairList n, p.1 < n ∧ p.2 < n) ∧ (∀ p ∈ pairList n, p.1 ≠ p.2) ∧
      ∀ i j, i < j → j < n → (i, j) ∈ pairList n := by
  refine ⟨?_, ?_, ?_⟩
  · intro p hp
    obtain ⟨hij, hjn⟩ := (mem_pairList n p.1 p.2).mp hp
    omega
  · intro p hp
    obtain ⟨hij, _⟩ := (mem_pairList n p.1 p.2).mp hp
    omega
  · intro i j hij hjn
    exact (mem_pairList n i j).mpr ⟨hij, hjn⟩

/-- The blocks of a successful clustering hold exactly the valid
understandings. -/
lemma clusterUnderstandings_blocks_perm (us : List Understanding) (cs : List Cluster)
    (h : clusterUnderstandings us = .ok cs) :
    List.Perm (cs.map Cluster.understandings).flatten (validOf us) := by
  rcases clusterUnderstandings_ok_inv us cs h with ⟨hval, hcs⟩ | ⟨merged, hrun, hbuild⟩
  · subst hcs
    rw [hval]
    exact List.Perm.refl _
  · obtain ⟨hmap, _, _⟩ := buildClusters_ok_inv _ _ _ _ hbuild
    rw [hmap]
    have hgs := runPairs_goodState (validOf us) _ _ merged hrun
      (initState_goodState (validOf us))
    exact ((sortClusters_perm merged).flatten).trans hgs.1

/-- The sizes of the clusters sum to the number of valid understandings. -/
lemma cluster_sizes_sum (us : List Understanding) (cs : List Cluster)
    (hok : clusterUnderstandings us = .ok cs) :
    (cs.map Cluster.size).sum = (validOf us).length := by
  have hperm := clusterUnderstandings_blocks_perm us cs hok
  have hlen := hperm.length_eq
  rw [List.length_flatten] at hlen
  rw [← hlen, List.map_map]
  congr 1
  apply List.map_congr_left
  intro c hc
  rcases clusterUnderstandings_ok_inv us cs hok with ⟨_, hcs⟩ | ⟨merged, _, hbuild⟩
  · subst hcs; simp at hc
  · obtain ⟨_, _, h3⟩ := buildClusters_ok_inv _ _ _ _ hbuild
    exact (h3 c hc).1

/-- Each cluster record carries the percentage computed from its size and the
total count of valid understandings. -/
lemma cluster_percentage_def (us : List Understanding) (cs : List Cluster)
    (hok : clusterUnderstandings us = .ok cs) :
    ∀ c ∈ cs, c.size = c.understandings.length ∧
      c.percentage = ((c.size : ℝ) / (((validOf us).length : ℝ))) * 100 := by
  intro c hc
  rcases clusterUnderstandings_ok_inv us cs hok with ⟨_, hcs⟩ | ⟨merged, _, hbuild⟩
  · subst hcs; simp at hc
  · obtain ⟨_, _, h3⟩ := buildClusters_ok_inv _ _ _ _ hbuild
    obtain ⟨hsz, hpc, _⟩ := h3 c hc
    exact ⟨hsz, by rw [hpc, hsz]⟩

/-- No cluster of a successful run is empty. -/
lemma cluster_blocks_nonempty (us : List Understanding) (cs : List Cluster)
    (hok : clusterUnderstandings us = .ok cs) :
    ∀ c ∈ cs, c.understandings ≠ [] := by
  intro c hc
  rcases clusterUnderstandings_ok_inv us cs hok with ⟨_, hcs⟩ | ⟨merged, hrun, hbuild⟩
  · subst hcs; simp at hc
  · obtain ⟨hmap, _, _⟩ := buildClusters_ok_inv _ _ _ _ hbuild
    have hgs := runPairs_goodState (validOf us) _ _ merged hrun
      (initState_goodState (validOf us))
    have hmem : c.understandings ∈ sortClusters merged := by
      rw [← hmap]
      exact List.mem_map.mpr ⟨c, hc, rfl⟩
    exact hgs.2 _ ((sortClusters_perm merged).mem_iff.mp hmem)

/-- The clusters are sorted by non-increasing size. -/
lemma cluster_sizes_sorted (us : List Understanding) (cs : List Cluster)
    (hok : clusterUnderstandings us = .ok cs) :
    cs.Pairwise fun a b => b.size ≤ a.size := by
  rcases clusterUnderstandings_ok_inv us cs hok with ⟨_, hcs⟩ | ⟨merged, _, hbuild⟩
  · subst hcs; simp
  · obtain ⟨hmap, _, h3⟩ := buildClusters_ok_inv _ _ _ _ hbuild
    have hsorted := sortClusters_sorted merged
    rw [← hmap] at hsorted
    have := List.pairwise_map.mp hsorted
    refine List.Pairwise.imp_of_mem ?_ this
    intro a b ha hb hr
    rw [(h3 a ha).1, (h3 b hb).1]
    exact hr

/-- A successful run with a nonempty cluster list has valid understandings. -/
lemma valid_ne_of_clusters_ne (us : List Understanding) (cs : List Cluster)
    (hok : clusterUnderstandings us = .ok cs) (h : cs ≠ []) : validOf us ≠ [] := by
  intro hv
  rcases clusterUnderstandings_ok_inv us cs hok with ⟨_, hcs⟩ | ⟨merged, hrun, hbuild⟩
  · exact h hcs
  · obtain ⟨hmap, _, _⟩ := buildClusters_ok_inv _ _ _ _ hbuild
    have hperm := clusterUnderstandings_blocks_perm us cs hok
    rw [hv] at hperm
    have : cs.map Cluster.understandings ≠ [] := by
      intro hmm
      exact h (List.map_eq_nil_iff.mp hmm)
    obtain ⟨c, hc⟩ := List.exists_mem_of_ne_nil _ (by simpa using h)
    have hne := cluster_blocks_nonempty us cs hok c hc
    have : c.understandings ∈ cs.map Cluster.understandings :=
      List.mem_map.mpr ⟨c, hc, rfl⟩
    obtain ⟨u, hu⟩ := List.exists_mem_of_ne_nil _ hne
    have : u ∈ (cs.map Cluster.understandings).flatten :=
      List.mem_flatten.mpr ⟨c.understandings, this, hu⟩
    have := hperm.mem_iff.mp this
    simp at this

/-- A shared record of the output corresponds to a shared block of the sorted
merge state. -/
lemma sameCluster_map_iff (cs : List Cluster) (x y : Understanding) :
    (∃ c ∈ cs, x ∈ c.understandings ∧ y ∈ c.understandings) ↔
      SameCluster (cs.map Cluster.understandings) x y := by
  constructor
  · intro ⟨c, hc, hx, hy⟩
    exact ⟨c.understandings, List.mem_map.mpr ⟨c, hc, rfl⟩, hx, hy⟩
  · intro ⟨b, hb, hx, hy⟩
    obtain ⟨c, hc, he⟩ := List.mem_map.mp hb
    exact ⟨c, hc, he ▸ hx, he ▸ hy⟩

/-- `SameCluster` only depends on the blocks up to permutation. -/
lemma sameCluster_perm_iff {bs bs' : List (List Understanding)}
    (h : List.Perm bs bs') (x y : Understanding) :
    SameCluster bs x y ↔ SameCluster bs' x y := by
  constructor <;> intro ⟨b, hb, hx, hy⟩
  · exact ⟨b, h.mem_iff.mp hb, hx, hy⟩
  · exact ⟨b, h.mem_iff.mpr hb, hx, hy⟩

/-- Every member of every output cluster is a valid understanding. -/
lemma cluster_members_valid (us : List Understanding) (cs : List Cluster)
    (hok : clusterUnderstandings us = .ok cs) :
    ∀ c ∈ cs, ∀ u ∈ c.understandings, u ∈ validOf us := by
  intro c hc u hu
  have hperm := clusterUnderstandings_blocks_perm us cs hok
  have humem : u ∈ (cs.map Cluster.understandings).flatten :=
    List.mem_flatten.mpr ⟨c.understandings, List.mem_map.mpr ⟨c, hc, rfl⟩, hu⟩
  exact hperm.mem_iff.mp humem

/-- The valid understandings of a run keep distinct ids when the input ids
are distinct. -/
lemma validOf_ids_nodup (us : List Understanding)
    (hids : (us.map Understanding.id).Nodup) :
    ((validOf us).map Understanding.id).Nodup :=
  hids.sublist ((List.filter_sublist us).map Understanding.id)

/-! ### Claims about the similarity engine and the ADR status -/

/-- C6: for every pair of equal-length vectors, `cosineSimilarity` returns the
dot product divided by the product of the two Euclidean magnitudes, a value
bounded to `[-1, 1]`; if either vector has zero magnitude the result is `0`
rather than a division error. -/
theorem cosineSimilarity_bounds_C6 (a b : List ℝ) (h : a.length = b.length) :
    ∃ r, cosineSimilarity a b = .ok r ∧ -1 ≤ r ∧ r ≤ 1 ∧
      ((Real.sqrt ((a.map fun x => x * x).sum) = 0 ∨
          Real.sqrt ((b.map fun x => x * x).sum) = 0) → r = 0) ∧
      (Real.sqrt ((a.map fun x => x * x).sum) ≠ 0 →
        Real.sqrt ((b.map fun x => x * x).sum) ≠ 0 →
          r = (List.zipWith (fun x y => x * y) a b).sum /
            (Real.sqrt ((a.map fun x => x * x).sum) *
              Real.sqrt ((b.map fun x => x * x).sum))) := by
  refine ⟨cosSimVal a b, cosineSimilarity_eq_ok a b h, neg_one_le_cosSimVal a b,
    cosSimVal_le_one a b, ?_, ?_⟩
  · intro hmag
    rw [cosSimVal, if_pos hmag]
  · intro hA hB
    rw [cosSimVal, if_neg (by tauto)]

/-- Witness for C6 at the concrete vectors `[1, 0]` and `[0, 1]`. -/
theorem cosineSimilarity_bounds_C6_witness :
    ∃ r, cosineSimilarity [(1 : ℝ), 0] [(0 : ℝ), 1] = .ok r ∧ -1 ≤ r ∧ r ≤ 1 ∧
      ((Real.sqrt ((([(1 : ℝ), 0]).map fun x => x * x).sum) = 0 ∨
          Real.sqrt ((([(0 : ℝ), 1]).map fun x => x * x).sum) = 0) → r = 0) ∧
      (Real.sqrt ((([(1 : ℝ), 0]).map fun x => x * x).sum) ≠ 0 →
        Real.sqrt ((([(0 : ℝ), 1]).map fun x => x * x).sum) ≠ 0 →
          r = (List.zipWith (fun x y => x * y) [(1 : ℝ), 0] [(0 : ℝ), 1]).sum /
            (Real.sqrt ((([(1 : ℝ), 0]).map fun x => x * x).sum) *
              Real.sqrt ((([(0 : ℝ), 1]).map fun x => x * x).sum))) :=
  cosineSimilarity_bounds_C6 [(1 : ℝ), 0] [(0 : ℝ), 1] rfl

/-- C7: `cosineSimilarity` on vectors of different lengths always fails with
the explicit length-mismatch error; it never returns a value. -/
theorem cosineSimilarity_mismatch_C7 (a b : List ℝ) (h : a.length ≠ b.length) :
    cosineSimilarity a b = .error "Vectors must have the same length" ∧
      ∀ r, cosineSimilarity a b ≠ .ok r := by
  refine ⟨cosineSimilarity_eq_error a b h, ?_⟩
  intro r hr
  rw [cosineSimilarity_eq_error a b h] at hr
  exact absurd hr (by simp)

/-- Witness for C7 at the concrete vectors `[1]` and `[1, 2]`. -/
theorem cosineSimilarity_mismatch_C7_witness :
    cosineSimilarity [(1 : ℝ)] [(1 : ℝ), 2] = .error "Vectors must have the same length" ∧
      ∀ r, cosineSimilarity [(1 : ℝ)] [(1 : ℝ), 2] ≠ .ok r :=
  cosineSimilarity_mismatch_C7 [(1 : ℝ)] [(1 : ℝ), 2] (by decide)

/-- C9 counterexample: at a consensus percentage of exactly `70` the code
yields `"Proposed"`, not `"Accepted"` as the claim (`>= 70` yields
`"Accepted"`) requires, because the source compares with the strict
`consensusPercentage > 70`. -/
theorem adrStatus_at_seventy_C9_cex :
    adrStatus 70 = "Proposed" ∧ adrStatus 70 ≠ "Accepted" := by
  have h : adrStatus 70 = "Proposed" := by
    rw [adrStatus, if_neg (by norm_num), if_pos (by norm_num)]
  exact ⟨h, by rw [h]; decide⟩

/-- C9 (amended): the ADR status uses the strict threshold `> 70` for
`"Accepted"`, `>= 50` (and `<= 70`) for `"Proposed"`, and the fallback
`"Under Discussion"` below `50`. -/
theorem adrStatus_thresholds_C9 (p : ℝ) :
    (70 < p → adrStatus p = "Accepted") ∧
      (50 ≤ p → p ≤ 70 → adrStatus p = "Proposed") ∧
      (p < 50 → adrStatus p = "Under Discussion") := by
  refine ⟨fun h => ?_, fun h1 h2 => ?_, fun h => ?_⟩
  · rw [adrStatus, if_pos (by exact h)]
  · rw [adrStatus, if_neg (by simp only [gt_iff_lt, not_lt]; exact h2), if_pos h1]
  · rw [adrStatus, if_neg (by simp only [gt_iff_lt, not_lt]; linarith), if_neg (by linarith)]

/-- Witness for the amended C9 at the percentages `80`, `60` and `40`. -/
theorem adrStatus_thresholds_C9_witness :
    adrStatus 80 = "Accepted" ∧ adrStatus 60 = "Proposed" ∧
      adrStatus 40 = "Under Discussion" :=
  ⟨(adrStatus_thresholds_C9 80).1 (by norm_num),
    (adrStatus_thresholds_C9 60).2.1 (by norm_num) (by norm_num),
    (adrStatus_thresholds_C9 40).2.2 (by norm_num)⟩

/-- C2 counterexample: on the empty statement list the code returns an empty
cluster list, whose percentages sum to `0`, not `100`; so the percentage-sum
part of the claim fails for inputs without any usable embedding. -/
theorem cluster_percentages_empty_C2_cex :
    clusterUnderstandings [] = .ok [] ∧
      ((List.map Cluster.percentage []).sum : ℝ) = 0 ∧ (0 : ℝ) ≠ 100 := by
  refine ⟨rfl, by simp, by norm_num⟩

/-- C2 (amended): the cluster sizes sum to the number of statements with a
usable embedding, each percentage is `size / total * 100`, and whenever at
least one statement has a usable embedding the percentages sum to exactly
`100`. -/
theorem cluster_sizes_C2 (us : List Understanding) (cs : List Cluster)
    (hok : clusterUnderstandings us = .ok cs) :
    (cs.map Cluster.size).sum = (validOf us).length ∧
      (∀ c ∈ cs, c.percentage = ((c.size : ℝ) / (((validOf us).length : ℝ))) * 100) ∧
      (validOf us ≠ [] → (cs.map Cluster.percentage).sum = 100) := by
  refine ⟨cluster_sizes_sum us cs hok,
    fun c hc => (cluster_percentage_def us cs hok c hc).2, ?_⟩
  intro hne
  have hT : (0 : ℝ) < ((validOf us).length : ℝ) := by
    have : 0 < (validOf us).length := List.length_pos.mpr hne
    exact_mod_cast this
  set T : ℝ := ((validOf us).length : ℝ) with hTdef
  have hmap : cs.map Cluster.percentage = cs.map fun c => ((c.size : ℝ)) * (100 / T) := by
    apply List.map_congr_left
    intro c hc
    rw [(cluster_percentage_def us cs hok c hc).2]
    ring
  rw [hmap, List.sum_map_mul_right]
  have hgen : ∀ l : List Cluster,
      (l.map fun c => ((c.size : ℝ))).sum = (((l.map Cluster.size).sum : ℕ) : ℝ) := by
    intro l
    induction l with
    | nil => simp
    | cons a as ih => simp [ih]
  rw [hgen cs, cluster_sizes_sum us cs hok, ← hTdef]
  field_simp

/-- C3: `calculateConsensus` returns `0` on the empty cluster list; on any
cluster list produced by `clusterUnderstandings` it returns exactly the
percentage of a largest cluster (the rank-1 one); and when everything fell
into a single cluster it returns `100`. -/
theorem consensus_C3 :
    calculateConsensus [] = 0 ∧
      (∀ us cs, clusterUnderstandings us = .ok cs → cs ≠ [] →
        ∃ c ∈ cs, calculateConsensus cs = c.percentage ∧
          ∀ d ∈ cs, d.size ≤ c.size ∧ d.percentage ≤ c.percentage) ∧
      ∀ us cs, clusterUnderstandings us = .ok cs → cs.length = 1 →
        calculateConsensus cs = 100 := by
  refine ⟨rfl, ?_, ?_⟩
  · intro us cs hok hne
    rcases cs with _ | ⟨c₀, rest⟩
    · exact absurd rfl hne
    have hsorted := cluster_sizes_sorted us _ hok
    rw [List.pairwise_cons] at hsorted
    refine ⟨c₀, List.mem_cons_self _ _, rfl, ?_⟩
    intro d hd
    have hdsize : d.size ≤ c₀.size := by
      rcases List.mem_cons.mp hd with rfl | hd2
      · exact le_refl _
      · exact hsorted.1 d hd2
    refine ⟨hdsize, ?_⟩
    have hT : (0 : ℝ) < ((validOf us).length : ℝ) := by
      have := valid_ne_of_clusters_ne us _ hok hne
      have : 0 < (validOf us).length := List.length_pos.mpr this
      exact_mod_cast this
    rw [(cluster_percentage_def us _ hok d hd).2,
      (cluster_percentage_def us _ hok c₀ (List.mem_cons_self _ _)).2]
    have hcast : ((d.size : ℝ)) ≤ ((c₀.size : ℝ)) := by exact_mod_cast hdsize
    gcongr
  · intro us cs hok hone
    rcases cs with _ | ⟨c₀, rest⟩
    · simp at hone
    have hrest : rest = [] := by
      simp only [List.length_cons] at hone
      exact List.length_eq_zero.mp (by omega)
    subst hrest
    have hsum := cluster_sizes_sum us _ hok
    simp only [List.map_cons, List.map_nil, List.sum_cons, List.sum_nil, add_zero] at hsum
    have hT : (0 : ℝ) < ((validOf us).length : ℝ) := by
      have := valid_ne_of_clusters_ne us _ hok (by simp)
      have : 0 < (validOf us).length := List.length_pos.mpr this
      exact_mod_cast this
    have := (cluster_percentage_def us _ hok c₀ (List.mem_cons_self _ _)).2
    rw [calculateConsensus, this, hsum]
    field_simp

/-- C5: the clusters are listed in non-increasing order of member count, get
ids `1..N` in that order, the listed blocks are the stable sort of the blocks
produced by the merge loop, and that sort keeps equal-size blocks in their
pre-sort relative order. -/
theorem cluster_ordering_C5 (us : List Understanding) (cs : List Cluster)
    (hok : clusterUnderstandings us = .ok cs) :
    (cs.Pairwise fun a b => b.size ≤ a.size) ∧
      cs.map Cluster.id = List.range' 1 cs.length 1 ∧
      (∃ pre, runPairs (validOf us) (pairList (validOf us).length)
          ((validOf us).map fun u => [u]) = .ok pre ∧
        cs.map Cluster.understandings = sortClusters pre) ∧
      ∀ (bs : List (List Understanding)) (k : Nat),
        (sortClusters bs).filter (fun b => b.length == k) =
          bs.filter (fun b => b.length == k) := by
  refine ⟨cluster_sizes_sorted us cs hok, ?_, ?_, fun bs k => sortClusters_filter bs k⟩
  · rcases clusterUnderstandings_ok_inv us cs hok with ⟨hval, hcs⟩ | ⟨merged, _, hbuild⟩
    · subst hcs; simp
    · obtain ⟨h1, h2, _⟩ := buildClusters_ok_inv _ _ _ _ hbuild
      rw [h2]
      congr 1
      have := congrArg List.length h1
      simpa using this.symm
  · rcases clusterUnderstandings_ok_inv us cs hok with ⟨hval, hcs⟩ | ⟨merged, hrun, hbuild⟩
    · subst hcs
      refine ⟨[], ?_, by simp [sortClusters]⟩
      rw [hval]
      rfl
    · obtain ⟨h1, _, _⟩ := buildClusters_ok_inv _ _ _ _ hbuild
      exact ⟨merged, hrun, h1⟩

/-- Witness scaffold for C8: the concrete mismatched batch. An understanding
whose embedding is present, non-empty but of the wrong dimension is not
discarded; it reaches `cosineSimilarity`, whose error aborts the whole
clustering run. -/
theorem malformed_embedding_fatal_C8_cex :
    hasUsableEmbedding mismatchA = true ∧ hasUsableEmbedding mismatchB = true ∧
      clusterUnderstandings [mismatchA, mismatchB] =
        .error "Vectors must have the same length" := by
  refine ⟨rfl, rfl, rfl⟩

/-- C8 (amended): null or empty embeddings are discarded before clustering —
the run behaves exactly as if those statements were absent, they appear in no
cluster, and zero usable statements give the empty cluster list rather than
an error.  However a present, non-empty embedding of mismatched dimension is
not treated as missing: it stays in the batch and aborts the whole
computation with the length-mismatch error. -/
theorem invalid_excluded_C8 (us : List Understanding) (cs : List Cluster) :
    clusterUnderstandings us = clusterUnderstandings (validOf us) ∧
      (validOf us = [] → clusterUnderstandings us = .ok []) ∧
      (clusterUnderstandings us = .ok cs →
        ∀ c ∈ cs, ∀ u ∈ c.understandings, u ∈ validOf us ∧ hasUsableEmbedding u = true) := by
  refine ⟨?_, ?_, ?_⟩
  · have hfi : (us.filter hasUsableEmbedding).filter hasUsableEmbedding =
        us.filter hasUsableEmbedding := by
      rw [List.filter_filter]
      simp [Bool.and_self]
    simp only [clusterUnderstandings, validOf]
    rw [hfi]
  · intro hv
    have hv2 : us.filter hasUsableEmbedding = [] := hv
    simp only [clusterUnderstandings, hv2]
    rfl
  · intro hok c hc u hu
    have hval : u ∈ validOf us := cluster_members_valid us cs hok c hc u hu
    exact ⟨hval, (List.mem_filter.mp hval).2⟩

/-- C4: every cluster's representative text is the text of a member whose
average pairwise cosine similarity to all other members of the cluster is
maximal; for a singleton cluster it is the sole member's text. -/
theorem representative_C4 (us : List Understanding) (cs : List Cluster)
    (hok : clusterUnderstandings us = .ok cs) :
    (∀ c ∈ cs, ∃ i, i < c.understandings.length ∧
      c.representative_text = (c.understandings.getD i default).understanding_text ∧
      ∀ j, j < c.understandings.length →
        avgSimWithin c.understandings j ≤ avgSimWithin c.understandings i) ∧
      ∀ c ∈ cs, c.understandings.length = 1 →
        c.representative_text = (c.understandings.getD 0 default).understanding_text := by
  have hmain : ∀ c ∈ cs, ∃ i, i < c.understandings.length ∧
      c.representative_text = (c.understandings.getD i default).understanding_text ∧
      ∀ j, j < c.understandings.length →
        avgSimWithin c.understandings j ≤ avgSimWithin c.understandings i := by
    intro c hc
    rcases clusterUnderstandings_ok_inv us cs hok with ⟨_, hcs⟩ | ⟨merged, _, hbuild⟩
    · subst hcs; simp at hc
    · obtain ⟨_, _, h3⟩ := buildClusters_ok_inv _ _ _ _ hbuild
      obtain ⟨_, _, ri, hrep, htext⟩ := h3 c hc
      obtain ⟨hlt, hmax, _⟩ :=
        repSelect_spec _ ri hrep (cluster_blocks_nonempty us cs hok c hc)
      exact ⟨ri, hlt, htext, hmax⟩
  refine ⟨hmain, ?_⟩
  intro c hc h1
  obtain ⟨i, hlt, htext, _⟩ := hmain c hc
  rw [h1] at hlt
  have : i = 0 := by omega
  exact this ▸ htext

/-- C1: under the data model's unique statement ids, a successful run
partitions exactly the valid statements: every valid statement lies in
exactly one cluster, clusters hold only valid statements, two statements
share a cluster precisely when they are connected in the graph joining pairs
with similarity at least `0.75` (hence transitive chains collapse into one
cluster), and any processing order of the pairs (any permutation of the pair
list) yields the same partition. -/
theorem clustering_partition_C1 (us : List Understanding) (cs : List Cluster)
    (hids : (us.map Understanding.id).Nodup)
    (hok : clusterUnderstandings us = .ok cs) :
    (∀ u ∈ validOf us, ∃ c ∈ cs, u ∈ c.understandings ∧
      ∀ d ∈ cs, u ∈ d.understandings → d = c) ∧
      (∀ c ∈ cs, ∀ u ∈ c.understandings, u ∈ validOf us) ∧
      (∀ x y, (∃ c ∈ cs, x ∈ c.understandings ∧ y ∈ c.understandings) ↔
        (x ∈ validOf us ∧ Connected (validOf us) x y)) ∧
      ∀ (P : List (Nat × Nat)) (bs' : List (List Understanding)),
        List.Perm P (pairList (validOf us).length) →
        runPairs (validOf us) P ((validOf us).map fun u => [u]) = .ok bs' →
        ∀ x y, SameCluster bs' x y ↔ (x ∈ validOf us ∧ Connected (validOf us) x y) := by
  have hndv := validOf_ids_nodup us hids
  obtain ⟨hPb, hPn, hPc⟩ := pairList_facts (validOf us).length
  have horder : ∀ (P : List (Nat × Nat)) (bs' : List (List Understanding)),
      List.Perm P (pairList (validOf us).length) →
      runPairs (validOf us) P ((validOf us).map fun u => [u]) = .ok bs' →
      ∀ x y, SameCluster bs' x y ↔ (x ∈ validOf us ∧ Connected (validOf us) x y) := by
    intro P bs' hperm hrun x y
    refine runPairs_partition_iff (validOf us) hndv P bs'
      (fun p hp => hPb p (hperm.mem_iff.mp hp))
      (fun p hp => hPn p (hperm.mem_iff.mp hp))
      (fun i j hij hjn => hperm.mem_iff.mpr (hPc i j hij hjn)) hrun x y
  have hvalmem : ∀ c ∈ cs, ∀ u ∈ c.understandings, u ∈ validOf us :=
    cluster_members_valid us cs hok
  have hiff : ∀ x y, (∃ c ∈ cs, x ∈ c.understandings ∧ y ∈ c.understandings) ↔
      (x ∈ validOf us ∧ Connected (validOf us) x y) := by
    intro x y
    rcases clusterUnderstandings_ok_inv us cs hok with ⟨hval, hcs⟩ | ⟨merged, hrun, hbuild⟩
    · subst hcs
      constructor
      · intro ⟨c, hc, _⟩
        simp at hc
      · intro ⟨hx, _⟩
        rw [hval] at hx
        simp at hx
    · obtain ⟨h1, _, _⟩ := buildClusters_ok_inv _ _ _ _ hbuild
      rw [sameCluster_map_iff, h1,
        sameCluster_perm_iff (sortClusters_perm merged) x y]
      exact horder (pairList (validOf us).length) merged (List.Perm.refl _) hrun x y
  refine ⟨?_, hvalmem, hiff, horder⟩
  intro u hu
  have hself : ∃ c ∈ cs, u ∈ c.understandings ∧ u ∈ c.understandings :=
    (hiff u u).mpr ⟨hu, Relation.ReflTransGen.refl⟩
  obtain ⟨c, hc, hu1, _⟩ := hself
  refine ⟨c, hc, hu1, ?_⟩
  intro d hd hud
  have hgsmap : GoodState (validOf us) (cs.map Cluster.understandings) := by
    constructor
    · exact clusterUnderstandings_blocks_perm us cs hok
    · intro b hb
      obtain ⟨e, he, hee⟩ := List.mem_map.mp hb
      exact hee ▸ cluster_blocks_nonempty us cs hok e he
  obtain ⟨kc, hkc, hec⟩ := List.getElem_of_mem hc
  obtain ⟨kd, hkd, hed⟩ := List.getElem_of_mem hd
  have hkcd : kd = kc := by
    have hbd : kd < (cs.map Cluster.understandings).length := by simpa using hkd
    have hbc : kc < (cs.map Cluster.understandings).length := by simpa using hkc
    have h₁ : u ∈ (cs.map Cluster.understandings)[kd] := by
      rw [List.getElem_map]
      exact hed ▸ hud
    have h₂ : u ∈ (cs.map Cluster.understandings)[kc] := by
      rw [List.getElem_map]
      exact hec ▸ hu1
    exact block_position_unique (validOf us) (cs.map Cluster.understandings)
      hgsmap hndv (by simpa using hkd) (by simpa using hkc) h₁ h₂
  subst hkcd
  rw [← hed, ← hec]

/-! ### Evaluation of the pipeline on the concrete batch -/

/-- Evaluation helper: a cosine similarity value with rational magnitudes. -/
lemma cosSimVal_eval (a b : List ℝ) (ma mb d : ℝ)
    (hma : (a.map fun x => x * x).sum = ma * ma)
    (hmb : (b.map fun x => x * x).sum = mb * mb)
    (hma0 : 0 < ma) (hmb0 : 0 < mb)
    (hd : (List.zipWith (fun x y => x * y) a b).sum = d) :
    cosSimVal a b = d / (ma * mb) := by
  rw [cosSimVal, hma, hmb, Real.sqrt_mul_self hma0.le, Real.sqrt_mul_self hmb0.le,
    if_neg (by push_neg; exact ⟨ne_of_gt hma0, ne_of_gt hmb0⟩), hd]

/-- The embeddings of the concrete batch. -/
lemma embOf_exU0 : embOf exU0 = [(1 : ℝ), 0] := rfl

/-- The embeddings of the concrete batch. -/
lemma embOf_exU1 : embOf exU1 = [(7 : ℝ), 24] := rfl

/-- The embeddings of the concrete batch. -/
lemma embOf_exU2 : embOf exU2 = [(4 : ℝ), 3] := rfl

/-- The ids of the concrete batch. -/
lemma id_exU0 : exU0.id = "a" := rfl

/-- The ids of the concrete batch. -/
lemma id_exU1 : exU1.id = "b" := rfl

/-- The ids of the concrete batch. -/
lemma id_exU2 : exU2.id = "c" := rfl

/-- Similarity of `[1,0]` and `[7,24]`. -/
lemma cos_10_724 : cosineSimilarity [(1 : ℝ), 0] [(7 : ℝ), 24] = .ok ((7 : ℝ) / 25) := by
  rw [cosineSimilarity_eq_ok _ _ (by rfl),
    cosSimVal_eval _ _ 1 25 7 (by norm_num) (by norm_num) (by norm_num) (by norm_num)
      (by norm_num)]
  norm_num

/-- Similarity of `[1,0]` and `[4,3]`. -/
lemma cos_10_43 : cosineSimilarity [(1 : ℝ), 0] [(4 : ℝ), 3] = .ok ((4 : ℝ) / 5) := by
  rw [cosineSimilarity_eq_ok _ _ (by rfl),
    cosSimVal_eval _ _ 1 5 4 (by norm_num) (by norm_num) (by norm_num) (by norm_num)
      (by norm_num)]
  norm_num

/-- Similarity of `[7,24]` and `[4,3]`. -/
lemma cos_724_43 : cosineSimilarity [(7 : ℝ), 24] [(4 : ℝ), 3] = .ok ((4 : ℝ) / 5) := by
  rw [cosineSimilarity_eq_ok _ _ (by rfl),
    cosSimVal_eval _ _ 25 5 100 (by norm_num) (by norm_num) (by norm_num) (by norm_num)
      (by norm_num)]
  norm_num

/-- Similarity of `[7,24]` and `[1,0]`. -/
lemma cos_724_10 : cosineSimilarity [(7 : ℝ), 24] [(1 : ℝ), 0] = .ok ((7 : ℝ) / 25) := by
  rw [cosineSimilarity_eq_ok _ _ (by rfl),
    cosSimVal_eval _ _ 25 1 7 (by norm_num) (by norm_num) (by norm_num) (by norm_num)
      (by norm_num)]
  norm_num

/-- Similarity of `[4,3]` and `[7,24]`. -/
lemma cos_43_724 : cosineSimilarity [(4 : ℝ), 3] [(7 : ℝ), 24] = .ok ((4 : ℝ) / 5) := by
  rw [cosineSimilarity_eq_ok _ _ (by rfl),
    cosSimVal_eval _ _ 5 25 100 (by norm_num) (by norm_num) (by norm_num) (by norm_num)
      (by norm_num)]
  norm_num

/-- Similarity of `[4,3]` and `[1,0]`. -/
lemma cos_43_10 : cosineSimilarity [(4 : ℝ), 3] [(1 : ℝ), 0] = .ok ((4 : ℝ) / 5) := by
  rw [cosineSimilarity_eq_ok _ _ (by rfl),
    cosSimVal_eval _ _ 5 1 4 (by norm_num) (by norm_num) (by norm_num) (by norm_num)
      (by norm_num)]
  norm_num

/-- The merge loop on the concrete batch: pair `(0,1)` stays below the
threshold, pair `(0,2)` merges, pair `(1,2)` merges the remaining blocks,
concatenating in merge-evaluation order. -/
lemma exRunSteps : runPairs [exU0, exU1, exU2] [(0, 1), (0, 2), (1, 2)]
    [[exU0], [exU1], [exU2]] = .ok [[exU1, exU0, exU2]] := by
  rw [runPairs,
    show cosineSimilarity (embOf (([exU0, exU1, exU2] : List Understanding).getD 0 default))
        (embOf (([exU0, exU1, exU2] : List Understanding).getD 1 default)) =
      .ok ((7 : ℝ) / 25) from cos_10_724]
  dsimp only
  rw [show applyMerge [[exU0], [exU1], [exU2]]
        (([exU0, exU1, exU2] : List Understanding).getD 0 default).id
        (([exU0, exU1, exU2] : List Understanding).getD 1 default).id ((7 : ℝ) / 25) =
      [[exU0], [exU1], [exU2]] by
    simp only [applyMerge]
    rw [if_neg (by rw [SIMILARITY_THRESHOLD]; norm_num)]]
  rw [runPairs,
    show cosineSimilarity (embOf (([exU0, exU1, exU2] : List Understanding).getD 0 default))
        (embOf (([exU0, exU1, exU2] : List Understanding).getD 2 default)) =
      .ok ((4 : ℝ) / 5) from cos_10_43]
  dsimp only
  rw [show applyMerge [[exU0], [exU1], [exU2]]
        (([exU0, exU1, exU2] : List Understanding).getD 0 default).id
        (([exU0, exU1, exU2] : List Understanding).getD 2 default).id ((4 : ℝ) / 5) =
      [[exU0, exU2], [exU1]] by
    simp only [applyMerge]
    rw [if_pos (by rw [SIMILARITY_THRESHOLD]; norm_num)]
    rfl]
  rw [runPairs,
    show cosineSimilarity (embOf (([exU0, exU1, exU2] : List Understanding).getD 1 default))
        (embOf (([exU0, exU1, exU2] : List Understanding).getD 2 default)) =
      .ok ((4 : ℝ) / 5) from cos_724_43]
  dsimp only
  rw [show applyMerge [[exU0, exU2], [exU1]]
        (([exU0, exU1, exU2] : List Understanding).getD 1 default).id
        (([exU0, exU1, exU2] : List Understanding).getD 2 default).id ((4 : ℝ) / 5) =
      [[exU1, exU0, exU2]] by
    simp only [applyMerge]
    rw [if_pos (by rw [SIMILARITY_THRESHOLD]; norm_num)]
    rfl]
  rw [runPairs]

/-- Similarity sums within the merged block, member `0` (`exU1`). -/
lemma exSum0 : sumSimilarities [exU1, exU0, exU2] 0
    (List.range ([exU1, exU0, exU2] : List Understanding).length) = .ok ((27 : ℝ) / 25) := by
  rw [show List.range ([exU1, exU0, exU2] : List Understanding).length = [0, 1, 2] from by rfl]
  rw [sumSimilarities, if_pos rfl, sumSimilarities, if_neg (by omega),
    show cosineSimilarity (embOf (([exU1, exU0, exU2] : List Understanding).getD 0 default))
        (embOf (([exU1, exU0, exU2] : List Understanding).getD 1 default)) =
      .ok ((7 : ℝ) / 25) from cos_724_10]
  dsimp only
  rw [sumSimilarities, if_neg (by omega),
    show cosineSimilarity (embOf (([exU1, exU0, exU2] : List Understanding).getD 0 default))
        (embOf (([exU1, exU0, exU2] : List Understanding).getD 2 default)) =
      .ok ((4 : ℝ) / 5) from cos_724_43]
  dsimp only
  rw [sumSimilarities]
  dsimp only
  norm_num

/-- Similarity sums within the merged block, member `1` (`exU0`). -/
lemma exSum1 : sumSimilarities [exU1, exU0, exU2] 1
    (List.range ([exU1, exU0, exU2] : List Understanding).length) = .ok ((27 : ℝ) / 25) := by
  rw [show List.range ([exU1, exU0, exU2] : List Understanding).length = [0, 1, 2] from by rfl]
  rw [sumSimilarities, if_neg (by omega),
    show cosineSimilarity (embOf (([exU1, exU0, exU2] : List Understanding).getD 1 default))
        (embOf (([exU1, exU0, exU2] : List Understanding).getD 0 default)) =
      .ok ((7 : ℝ) / 25) from cos_10_724]
  dsimp only
  rw [sumSimilarities, if_pos rfl, sumSimilarities, if_neg (by omega),
    show cosineSimilarity (embOf (([exU1, exU0, exU2] : List Understanding).getD 1 default))
        (embOf (([exU1, exU0, exU2] : List Understanding).getD 2 default)) =
      .ok ((4 : ℝ) / 5) from cos_10_43]
  dsimp only
  rw [sumSimilarities]
  dsimp only
  norm_num

/-- Similarity sums within the merged block, member `2` (`exU2`). -/
lemma exSum2 : sumSimilarities [exU1, exU0, exU2] 2
    (List.range ([exU1, exU0, exU2] : List Understanding).length) = .ok ((8 : ℝ) / 5) := by
  rw [show List.range ([exU1, exU0, exU2] : List Understanding).length = [0, 1, 2] from by rfl]
  rw [sumSimilarities, if_neg (by omega),
    show cosineSimilarity (embOf (([exU1, exU0, exU2] : List Understanding).getD 2 default))
        (embOf (([exU1, exU0, exU2] : List Understanding).getD 0 default)) =
      .ok ((4 : ℝ) / 5) from cos_43_724]
  dsimp only
  rw [sumSimilarities, if_neg (by omega),
    show cosineSimilarity (embOf (([exU1, exU0, exU2] : List Understanding).getD 2 default))
        (embOf (([exU1, exU0, exU2] : List Understanding).getD 1 default)) =
      .ok ((4 : ℝ) / 5) from cos_43_10]
  dsimp only
  rw [sumSimilarities, if_pos rfl, sumSimilarities]
  dsimp only
  norm_num

/-- The representative fold of the merged block picks index `2` (`exU2`),
whose average similarity `4/5` beats the tied `27/50` of the first two. -/
lemma exRepSelect : repSelect [exU1, exU0, exU2] = .ok 2 := by
  rw [repSelect, if_pos (by norm_num)]
  rw [show List.range ([exU1, exU0, exU2] : List Understanding).length = [0, 1, 2] from by rfl]
  rw [repFold, exSum0]
  dsimp only
  rw [if_pos (by norm_num)]
  rw [repFold, exSum1]
  dsimp only
  rw [if_neg (by norm_num)]
  rw [repFold, exSum2]
  dsimp only
  rw [if_pos (by norm_num)]
  rw [repFold]

/-- The cluster record produced for the concrete batch. -/
noncomputable def exCluster : Cluster :=
  { id := 1
    understandings := [exU1, exU0, exU2]
    representative_text := "t2"
    size := 3
    percentage := 100 }

/-- Building the records for the concrete batch. -/
lemma exBuild : buildClusters 3 0 [[exU1, exU0, exU2]] = .ok [exCluster] := by
  rw [buildClusters, exRepSelect]
  dsimp only
  rw [buildClusters]
  dsimp only
  rw [exCluster]
  norm_num [Cluster.mk.injEq]
  rfl

/-- Full evaluation of `clusterUnderstandings` on the concrete batch: one
cluster of all three statements, in merge-evaluation order, represented by
`exU2` with percentage `100`. -/
lemma exEval : clusterUnderstandings exInput = .ok [exCluster] := by
  simp only [clusterUnderstandings]
  rw [show exInput.filter hasUsableEmbedding = [exU0, exU1, exU2] from rfl]
  rw [if_neg (by norm_num)]
  rw [show pairList ([exU0, exU1, exU2] : List Understanding).length =
      [(0, 1), (0, 2), (1, 2)] from by rfl]
  rw [show (([exU0, exU1, exU2] : List Understanding).map fun u => [u]) =
      [[exU0], [exU1], [exU2]] from by rfl]
  rw [exRunSteps]
  dsimp only
  rw [show sortClusters [[exU1, exU0, exU2]] = [[exU1, exU0, exU2]] from by rfl]
  rw [show ([exU0, exU1, exU2] : List Understanding).length = 3 from by rfl]
  exact exBuild

/-- C10: the representative is the first (lowest-index) member of the
cluster's internal member list attaining the maximal average similarity —
later ties never replace an earlier maximum — and that internal list is the
merge-evaluation concatenation order, which on the concrete batch differs
from the original input order. -/
theorem representative_tiebreak_C10 (us : List Understanding) (cs : List Cluster)
    (hok : clusterUnderstandings us = .ok cs) :
    (∀ c ∈ cs, ∃ i, i < c.understandings.length ∧
      c.representative_text = (c.understandings.getD i default).understanding_text ∧
      (∀ j, j < c.understandings.length →
        avgSimWithin c.understandings j ≤ avgSimWithin c.understandings i) ∧
      ∀ j, j < i → avgSimWithin c.understandings j < avgSimWithin c.understandings i) ∧
      ∃ c, clusterUnderstandings exInput = .ok [c] ∧
        c.understandings = [exU1, exU0, exU2] ∧
        validOf exInput = [exU0, exU1, exU2] ∧
        c.understandings ≠ validOf exInput := by
  constructor
  · intro c hc
    rcases clusterUnderstandings_ok_inv us cs hok with ⟨_, hcs⟩ | ⟨merged, _, hbuild⟩
    · subst hcs; simp at hc
    · obtain ⟨_, _, h3⟩ := buildClusters_ok_inv _ _ _ _ hbuild
      obtain ⟨_, _, ri, hrep, htext⟩ := h3 c hc
      obtain ⟨hlt, hmax, hleast⟩ :=
        repSelect_spec _ ri hrep (cluster_blocks_nonempty us cs hok c hc)
      exact ⟨ri, hlt, htext, hmax, hleast⟩
  · refine ⟨exCluster, exEval, rfl, rfl, ?_⟩
    intro h
    rw [show exCluster.understandings = [exU1, exU0, exU2] from rfl,
      show validOf exInput = [exU0, exU1, exU2] from rfl] at h
    have h0 : exU1 = exU0 := by injection h
    have hid : exU1.id = exU0.id := congrArg Understanding.id h0
    rw [id_exU1, id_exU0] at hid
    exact absurd hid (by decide)

/-- Witness for C1 at the concrete batch: three statements with distinct ids
whose run succeeds. -/
theorem clustering_partition_C1_witness :
    (∀ u ∈ validOf exInput, ∃ c ∈ [exCluster], u ∈ c.understandings ∧
      ∀ d ∈ [exCluster], u ∈ d.understandings → d = c) ∧
      (∀ c ∈ [exCluster], ∀ u ∈ c.understandings, u ∈ validOf exInput) ∧
      (∀ x y, (∃ c ∈ [exCluster], x ∈ c.understandings ∧ y ∈ c.understandings) ↔
        (x ∈ validOf exInput ∧ Connected (validOf exInput) x y)) ∧
      ∀ (P : List (Nat × Nat)) (bs' : List (List Understanding)),
        List.Perm P (pairList (validOf exInput).length) →
        runPairs (validOf exInput) P ((validOf exInput).map fun u => [u]) = .ok bs' →
        ∀ x y, SameCluster bs' x y ↔
          (x ∈ validOf exInput ∧ Connected (validOf exInput) x y) :=
  clustering_partition_C1 exInput [exCluster] (by decide) exEval

/-- Witness for C2 at the concrete batch. -/
theorem cluster_sizes_C2_witness :
    ([exCluster].map Cluster.size).sum = (validOf exInput).length ∧
      (∀ c ∈ [exCluster],
        c.percentage = ((c.size : ℝ) / (((validOf exInput).length : ℝ))) * 100) ∧
      (validOf exInput ≠ [] → ([exCluster].map Cluster.percentage).sum = 100) :=
  cluster_sizes_C2 exInput [exCluster] exEval

/-- Witness for C3 at the concrete batch: all three statements share one
cluster and the consensus is `100`. -/
theorem consensus_C3_witness : calculateConsensus [exCluster] = 100 :=
  consensus_C3.2.2 exInput [exCluster] exEval rfl

/-- Witness for C4 at the concrete batch. -/
theorem representative_C4_witness :
    (∀ c ∈ [exCluster], ∃ i, i < c.understandings.length ∧
      c.representative_text = (c.understandings.getD i default).understanding_text ∧
      ∀ j, j < c.understandings.length →
        avgSimWithin c.understandings j ≤ avgSimWithin c.understandings i) ∧
      ∀ c ∈ [exCluster], c.understandings.length = 1 →
        c.representative_text = (c.understandings.getD 0 default).understanding_text :=
  representative_C4 exInput [exCluster] exEval

/-- Witness for C5 at the concrete batch. -/
theorem cluster_ordering_C5_witness :
    ([exCluster].Pairwise fun a b => b.size ≤ a.size) ∧
      [exCluster].map Cluster.id = List.range' 1 ([exCluster].length) 1 ∧
      (∃ pre, runPairs (validOf exInput) (pairList (validOf exInput).length)
          ((validOf exInput).map fun u => [u]) = .ok pre ∧
        [exCluster].map Cluster.understandings = sortClusters pre) ∧
      ∀ (bs : List (List Understanding)) (k : Nat),
        (sortClusters bs).filter (fun b => b.length == k) =
          bs.filter (fun b => b.length == k) :=
  cluster_ordering_C5 exInput [exCluster] exEval

/-- Witness for C8 at the concrete batch. -/
theorem invalid_excluded_C8_witness :
    clusterUnderstandings exInput = clusterUnderstandings (validOf exInput) ∧
      (validOf exInput = [] → clusterUnderstandings exInput = .ok []) ∧
      (clusterUnderstandings exInput = .ok [exCluster] →
        ∀ c ∈ [exCluster], ∀ u ∈ c.understandings,
          u ∈ validOf exInput ∧ hasUsableEmbedding u = true) :=
  invalid_excluded_C8 exInput [exCluster]

/-- Witness for C10 at the concrete batch. -/
theorem representative_tiebreak_C10_witness :
    (∀ c ∈ [exCluster], ∃ i, i < c.understandings.length ∧
      c.representative_text = (c.understandings.getD i default).understanding_text ∧
      (∀ j, j < c.understandings.length →
        avgSimWithin c.understandings j ≤ avgSimWithin c.understandings i) ∧
      ∀ j, j < i → avgSimWithin c.understandings j < avgSimWithin c.understandings i) ∧
      ∃ c, clusterUnderstandings exInput = .ok [c] ∧
        c.understandings = [exU1, exU0, exU2] ∧
        validOf exInput = [exU0, exU1, exU2] ∧
        c.understandings ≠ validOf exInput :=
  representative_tiebreak_C10 exInput [exCluster] exEval

end ArchSync
